import Mathlib

/-!
Verification of the two-stage occupation→program matching pipeline and the
query-time semantic search of the `logimoca-backend` repository.

Shallow embedding conventions:
* Python floats are idealized as real numbers `ℝ`; `np.linalg.norm` is the
  Euclidean norm `Real.sqrt (Σ x²)`; `np.dot` on 1-D arrays is the pointwise
  product summed (modelled with `zip`, which agrees with NumPy on equal-length
  inputs; NumPy raises on mismatched lengths, a case the pipeline never hits).
* Python `dict`s (which keep first-insertion position and update the value on
  a duplicate key) are modelled as association lists with `pyInsert` / `pyDict`
  / `pyGet`.
* Python's `list.sort(key=..., reverse=True)` and `sorted(..., reverse=True)`
  are stable descending sorts, modelled by the stable insertion sort
  `sortDesc`.  `np.argsort(scores)[::-1]` (whose tie order is unspecified,
  NumPy's default quicksort not being stable) is modelled as the stable
  descending sort of the index list, i.e. ties keep the smaller index first.
* Database tables are modelled as lists of rows passed explicitly.
-/

/-- Sum of squares of a vector's entries (the square of the Euclidean norm). -/
def sumSq (v : List ℝ) : ℝ := (v.map (fun x => x * x)).sum

/-- `np.linalg.norm` on a 1-D array: the Euclidean norm. -/
noncomputable def npNorm (v : List ℝ) : ℝ := Real.sqrt (sumSq v)

/-- `np.dot` on 1-D arrays: pointwise product, summed. -/
def dot (v w : List ℝ) : ℝ := ((v.zip w).map (fun p => p.1 * p.2)).sum

/-- The epsilon `1e-8` added to every norm before division in the source. -/
def eps : ℝ := 1e-8

/-- Row normalization `A / (np.linalg.norm(A, axis=1, keepdims=True) + 1e-8)`
from `cosine_similarity_matrix` (`build_occupation_associations.py`, lines
77-79). -/
noncomputable def rowNormalize (a : List ℝ) : List ℝ :=
  a.map (fun x => x / (npNorm a + eps))

/-- `cosine_similarity_matrix(A, B)` (`build_occupation_associations.py`,
lines 72-80): normalize the rows of `A` and `B`, then return `A_norm @
B_norm.T`, the matrix whose `(i, j)` entry is the dot product of the `i`-th
normalized row of `A` with the `j`-th normalized row of `B`. -/
noncomputable def cosine_similarity_matrix (A B : List (List ℝ)) : List (List ℝ) :=
  A.map (fun a => B.map (fun b => dot (rowNormalize a) (rowNormalize b)))

/-- The pad-or-truncate normalization applied per raw embedding in
`build_occupation_associations.embed_texts_local` (lines 60-67) and in
`program_search._embed_query_local` (lines 30-34): pad with zeros if shorter
than `padTo`, truncate if longer. -/
def padTrunc (v : List ℝ) (padTo : ℕ) : List ℝ :=
  if v.length < padTo then v ++ List.replicate (padTo - v.length) 0
  else if padTo < v.length then v.take padTo
  else v

/-- `embed_texts_local` of `build_occupation_associations.py` (lines 51-69),
with the sentence-transformers model call abstracted as the list `raws` of raw
model output vectors: every raw embedding is padded/truncated to `padTo`
(default 1024) before being returned. -/
def boa_embed_texts_local (raws : List (List ℝ)) (padTo : ℕ := 1024) : List (List ℝ) :=
  raws.map (fun v => padTrunc v padTo)

/-- `embed_texts_local` of `embed_programs.py` (lines 92-118), with the model
call abstracted as `raws`: the function returns `model.encode(texts).tolist()`
unchanged — it applies no padding and no truncation. -/
def ep_embed_texts_local (raws : List (List ℝ)) : List (List ℝ) := raws

/-- `embed_texts_voyage` of `embed_programs.py` (lines 64-89), with the API
call abstracted as `raws`: the response embeddings are returned unchanged —
no padding and no truncation. -/
def ep_embed_texts_voyage (raws : List (List ℝ)) : List (List ℝ) := raws

/-- `_embed_query_local` of `program_search.py` (lines 27-35), with the model
call abstracted as the raw vector `raw`: pad or truncate to `padTo`
(default 1024). -/
def embed_query_local (raw : List ℝ) (padTo : ℕ := 1024) : List ℝ :=
  padTrunc raw padTo

section PyDict

variable {κ : Type} {β : Type} [DecidableEq κ]

/-- Python `d[k] = v` on a dict modelled as an association list: a duplicate
key keeps its original position and gets the new value; a fresh key is
appended at the end (Python dicts preserve insertion order). -/
def pyInsert : List (κ × β) → κ → β → List (κ × β)
  | [], k, v => [(k, v)]
  | (k', v') :: rest, k, v =>
    if k' = k then (k, v) :: rest else (k', v') :: pyInsert rest k v

/-- A Python dict built from a list of key/value pairs (dict comprehension):
fold `pyInsert` over the pairs. -/
def pyDict (l : List (κ × β)) : List (κ × β) :=
  l.foldl (fun d p => pyInsert d p.1 p.2) []

/-- Python `d.get(k)` / `k in d`: the value at the first matching key. -/
def pyGet (d : List (κ × β)) (k : κ) : Option β :=
  (d.find? (fun p => decide (p.1 = k))).map (fun p => p.2)

end PyDict

section SortDesc

variable {α : Type} (key : α → ℝ)

/-- Insert `x` into a descending-sorted list, before the first element whose
key is `≤ key x`.  Inserting the elements from the right makes the resulting
sort stable (equal keys keep their original order), matching Python's
`sort(..., reverse=True)` / `sorted(..., reverse=True)`. -/
noncomputable def insertDesc (x : α) : List α → List α
  | [] => [x]
  | y :: ys => if key y ≤ key x then x :: y :: ys else y :: insertDesc x ys

/-- Stable descending sort by `key`, modelling Python's stable
`sort(key=..., reverse=True)`. -/
noncomputable def sortDesc : List α → List α
  | [] => []
  | x :: xs => insertDesc key x (sortDesc xs)

end SortDesc

section FoldInsert

variable {κ : Type} {β : Type} {γ : Type} [DecidableEq κ]

/-- The accumulation scheme shared by `stage1_map_occupations_to_pathways` and
`stage2_map_occupations_to_programs`: walk the item list, and for each item
whose guards produce a value, write it into the dict under the item's key. -/
def foldInsert (kf : γ → κ) (mv : γ → Option β) (items : List γ)
    (acc : List (κ × β)) : List (κ × β) :=
  items.foldl (fun a it =>
    match mv it with
    | none => a
    | some v => pyInsert a (kf it) v) acc

end FoldInsert

/-- `PathwayInfo` dataclass (`build_occupation_associations.py`,
lines 83-88). -/
structure PathwayInfo where
  id : String
  name : String
  sector_name : String
  text_for_embedding : String

instance : Inhabited PathwayInfo := ⟨⟨"", "", "", ""⟩⟩

/-- `OccupationInfo` dataclass (`build_occupation_associations.py`,
lines 91-96). -/
structure OccupationInfo where
  occ_code : String
  title : String
  description : String
  text_for_embedding : String

/-- `np.argsort(scores)[::-1]` (`build_occupation_associations.py`, line 207):
all indices of `scores`, ordered by descending score.  NumPy's default
quicksort leaves the order of tied entries unspecified; the model fixes ties
to keep the smaller index first (stable descending order). -/
noncomputable def argsortDesc (scores : List ℝ) : List ℕ :=
  sortDesc (fun i => scores.getD i 0) (List.range scores.length)

/-- The per-occupation selection of Stage 1
(`build_occupation_associations.py`, lines 204-215): take the top-`top_k`
pathway indices by descending score, keep those whose score is `≥ threshold`,
and record `(pathway_id, score)` pairs in that order. -/
noncomputable def stage1_select (pathway_infos : List PathwayInfo) (scores : List ℝ)
    (top_k : ℕ) (threshold : ℝ) : List (String × ℝ) :=
  ((argsortDesc scores).take top_k).filterMap (fun idx =>
    let score := scores.getD idx 0
    if threshold ≤ score then some ((pathway_infos.getD idx default).id, score)
    else none)

/-- `stage1_map_occupations_to_pathways` (`build_occupation_associations.py`,
lines 179-233): compute the occupation×pathway cosine-similarity matrix, then
for each occupation select its matches with `stage1_select`; an occupation
with an empty match list is not added to the result dict. -/
noncomputable def stage1_map_occupations_to_pathways
    (occupation_infos : List OccupationInfo) (occupation_embeddings : List (List ℝ))
    (pathway_infos : List PathwayInfo) (pathway_embeddings : List (List ℝ))
    (top_k : ℕ := 5) (threshold : ℝ := 0.25) : List (String × List (String × ℝ)) :=
  let sim_matrix := cosine_similarity_matrix occupation_embeddings pathway_embeddings
  (occupation_infos.zip sim_matrix).foldl (fun acc oc =>
    let sel := stage1_select pathway_infos oc.2 top_k threshold
    if sel.isEmpty then acc
    else pyInsert acc oc.1.occ_code sel) []

/-- The guarded per-occupation value of Stage 1, as read off
`stage1_map_occupations_to_pathways`: `some` of the selected matches when
they are nonempty, `none` when the occupation is dropped (proof helper). -/
noncomputable def stage1_entry (pathway_infos : List PathwayInfo) (top_k : ℕ)
    (threshold : ℝ) (oc : OccupationInfo × List ℝ) : Option (List (String × ℝ)) :=
  let sel := stage1_select pathway_infos oc.2 top_k threshold
  if sel.isEmpty then none else some sel

/-- A row of the `vector_chunks` table
(`src/src/models/public_schema/vector_chunk.py`). -/
structure VectorChunkRow where
  chunk_source_type : String
  chunk_source_id : String
  chunk_text : String
  chunk_embedding : List ℝ

/-- The chunk-loading step of Stage 2 (`build_occupation_associations.py`,
lines 253-263): select `(chunk_source_id, chunk_embedding)` of the chunks
whose `chunk_source_type` is `'program'` and build the
`program_id_to_embedding` dict (a duplicate source id keeps the last
embedding). -/
def stage2_load_program_embeddings (chunks : List VectorChunkRow) :
    List (String × List ℝ) :=
  pyDict ((chunks.filter (fun c => c.chunk_source_type == "program")).map
    (fun c => (c.chunk_source_id, c.chunk_embedding)))

/-- The per-candidate cosine similarity of Stage 2
(`build_occupation_associations.py`, lines 300-303):
`dot / ((norm_occ + 1e-8) * (norm_prog + 1e-8))`. -/
noncomputable def stage2_score (occ_emb prog_emb : List ℝ) : ℝ :=
  dot occ_emb prog_emb / ((npNorm occ_emb + eps) * (npNorm prog_emb + eps))

/-- The per-occupation selection of Stage 2
(`build_occupation_associations.py`, lines 296-310): score every candidate
program, keep those scoring `≥ threshold`, sort by descending score (Python's
stable sort), and truncate to `max_programs_per_occ`. -/
noncomputable def stage2_select (occ_emb : List ℝ) (candidates : List (String × List ℝ))
    (threshold : ℝ) (max_programs_per_occ : ℕ) : List (String × ℝ) :=
  let scores := candidates.filterMap (fun pc =>
    let score := stage2_score occ_emb pc.2
    if threshold ≤ score then some (pc.1, score) else none)
  (sortDesc (fun x => x.2) scores).take max_programs_per_occ

/-- `stage2_map_occupations_to_programs` (`build_occupation_associations.py`,
lines 236-332).  `programs` is the list of `(id, pathway_id)` pairs of the
`programs` table.  For each occupation present in `occ_to_pathways`, the
candidate set is restricted to the loaded program embeddings whose program's
pathway is among the occupation's matched pathways (a program id absent from
the `programs` table, i.e. `program_to_pathway.get(prog_id) is None`, never
qualifies); candidates are then scored and selected with `stage2_select`. -/
noncomputable def stage2_map_occupations_to_programs
    (chunks : List VectorChunkRow) (programs : List (String × String))
    (occupation_infos : List OccupationInfo) (occupation_embeddings : List (List ℝ))
    (occ_to_pathways : List (String × List (String × ℝ)))
    (threshold : ℝ := 0.30) (max_programs_per_occ : ℕ := 20) :
    List (String × List (String × ℝ)) :=
  let program_id_to_embedding := stage2_load_program_embeddings chunks
  let program_to_pathway := pyDict programs
  (occupation_infos.zip occupation_embeddings).foldl (fun acc oc =>
    match pyGet occ_to_pathways oc.1.occ_code with
    | none => acc
    | some pws =>
      let matched_pathways := pws.map (fun x => x.1)
      let candidate_programs := program_id_to_embedding.filter (fun pc =>
        match pyGet program_to_pathway pc.1 with
        | some pw => decide (pw ∈ matched_pathways)
        | none => false)
      if candidate_programs.isEmpty then acc
      else
        let scores := stage2_select oc.2 candidate_programs threshold max_programs_per_occ
        if scores.isEmpty then acc
        else pyInsert acc oc.1.occ_code scores) []

/-- The guarded per-occupation value of Stage 2, as read off
`stage2_map_occupations_to_programs` (proof helper). -/
noncomputable def stage2_entry (chunks : List VectorChunkRow)
    (programs : List (String × String))
    (occ_to_pathways : List (String × List (String × ℝ)))
    (threshold : ℝ) (max_programs_per_occ : ℕ)
    (oc : OccupationInfo × List ℝ) : Option (List (String × ℝ)) :=
  match pyGet occ_to_pathways oc.1.occ_code with
  | none => none
  | some pws =>
    let matched_pathways := pws.map (fun x => x.1)
    let candidate_programs := (stage2_load_program_embeddings chunks).filter (fun pc =>
      match pyGet (pyDict programs) pc.1 with
      | some pw => decide (pw ∈ matched_pathways)
      | none => false)
    if candidate_programs.isEmpty then none
    else
      let scores := stage2_select oc.2 candidate_programs threshold max_programs_per_occ
      if scores.isEmpty then none else some scores

/-- A row of the `program_occupation_association` table. -/
structure AssociationRow where
  program_id : String
  occupation_onet_code : String

/-- The association rows built by Stage 3
(`build_occupation_associations.py`, lines 360-368): one
`(program_id, occupation_onet_code)` row per scored program of each
occupation, in dict-iteration order. -/
def build_associations (occ_to_programs : List (String × List (String × ℝ))) :
    List AssociationRow :=
  occ_to_programs.flatMap (fun op => op.2.map (fun ps => ⟨ps.1, op.1⟩))

/-- `stage3_populate_association_table` (`build_occupation_associations.py`,
lines 335-381), with the association table modelled as an explicit list of
rows: when not a dry run, delete every existing row, then bulk-insert the
computed associations and commit; when `dry_run` is true, perform neither the
delete nor the insert.  Returns the new table state and the function's return
value `len(associations)`. -/
def stage3_populate_association_table (table : List AssociationRow)
    (occ_to_programs : List (String × List (String × ℝ)))
    (dry_run : Bool := false) : List AssociationRow × ℕ :=
  let cleared := if dry_run then table else []
  let associations := build_associations occ_to_programs
  let final := if dry_run then cleared else cleared ++ associations
  (final, associations.length)

/-- `ScoredProgram` dataclass (`program_search.py`, lines 38-42). -/
structure ScoredProgram where
  program_id : String
  score : ℝ
  preview : String

/-- The preview computation of `search_programs` (`program_search.py`,
line 67): `text[:160].replace("\n", " ")`. -/
def previewOf (t : String) : String :=
  (t.take 160).map (fun c => if c = '\n' then ' ' else c)

/-- `search_programs` (`program_search.py`, lines 45-75), with the query's
raw model embedding abstracted as `query_raw` and the database modelled as
the list `chunks` of `vector_chunks` rows.  The fetch step selects
`(chunk_source_id, chunk_text, chunk_embedding)` of every stored chunk — the
`select` carries no `chunk_source_type` filter.  Each chunk is scored against
the query; per source id only the best score (first chunk on ties) is kept;
the results are sorted by descending score and truncated to `top_k`. -/
noncomputable def search_programs (query_raw : List ℝ) (chunks : List VectorChunkRow)
    (top_k : ℕ := 10) : List ScoredProgram :=
  let q := embed_query_local query_raw
  let q_norm := npNorm q + eps
  let rows := chunks.map (fun c => (c.chunk_source_id, c.chunk_text, c.chunk_embedding))
  let best := rows.foldl (fun best row =>
    let v := row.2.2
    let denom := (npNorm v + eps) * q_norm
    if denom = 0 then best
    else
      let score := dot v q / denom
      let prev := previewOf row.2.1
      match pyGet best row.1 with
      | none => pyInsert best row.1 (score, prev)
      | some sp => if sp.1 < score then pyInsert best row.1 (score, prev) else best) []
  let ranked := sortDesc (fun x : ScoredProgram => x.score)
    (best.map (fun b => ScoredProgram.mk b.1 b.2.1 b.2.2))
  ranked.take top_k

/-- The score `search_programs` computes for one fetched row
`(chunk_source_id, chunk_text, chunk_embedding)` against the embedded query
`q` (`program_search.py`, lines 62-66). -/
noncomputable def row_score (q : List ℝ) (row : String × String × List ℝ) : ℝ :=
  dot row.2.2 q / ((npNorm row.2.2 + eps) * (npNorm q + eps))

/-- The score `search_programs` computes for a stored chunk. -/
noncomputable def chunk_score (query_raw : List ℝ) (c : VectorChunkRow) : ℝ :=
  row_score (embed_query_local query_raw)
    (c.chunk_source_id, c.chunk_text, c.chunk_embedding)

/-- Invariant of the best-per-program accumulation loop of `search_programs`
(proof scaffolding): keys are distinct, every seen row's key is present, and
every entry records the score and preview of a seen row with its key, that
score dominating every seen row with the same key. -/
def SearchInv (q : List ℝ) (seen : List (String × String × List ℝ))
    (best : List (String × (ℝ × String))) : Prop :=
  (best.map Prod.fst).Nodup
  ∧ (∀ row ∈ seen, ∃ e ∈ best, e.1 = row.1)
  ∧ (∀ e ∈ best, ∃ row ∈ seen, row.1 = e.1 ∧ e.2.1 = row_score q row
      ∧ e.2.2 = previewOf row.2.1
      ∧ ∀ row' ∈ seen, row'.1 = e.1 → row_score q row' ≤ e.2.1)

/-- A row of the `programs` table, restricted to the columns read by
`hydrate_programs`. -/
structure ProgramRow where
  id : String
  name : String
  institution_name : Option String
  degree_type : Option String
  duration_years : Option ℝ
  cost_total : Option ℝ

/-- Python's `x or None` on an optional string: an absent or empty (falsy)
string becomes `None`. -/
def strOrNone : Option String → Option String
  | some s => if s = "" then none else some s
  | none => none

/-- Python's `round(x, 4)` (`program_search.py`, line 101), idealized over
`ℝ` (Mathlib's `round` rounds half away from the nearest even integer choice
only at exact midpoints, which no claim depends on). -/
noncomputable def pyRound4 (x : ℝ) : ℝ := round (x * 10000) / 10000

/-- One element of the list returned by `hydrate_programs`: the flattened
content of the `{"program": {...}, "score": ..., "preview": ...}` dict. -/
structure HydratedResult where
  program_id : String
  name : String
  institution : Option String
  degree_type : Option String
  duration_years : Option ℝ
  cost_total : Option ℝ
  score : ℝ
  preview : String

/-- `hydrate_programs` (`program_search.py`, lines 78-104), with the
`programs` table modelled as the list `program_table`: fetch the programs
whose id occurs among the scored ids, index them by id, then walk the scored
list in order, silently skipping entries whose id has no matching program
row. -/
noncomputable def hydrate_programs (program_table : List ProgramRow)
    (scored : List ScoredProgram) : List HydratedResult :=
  if scored.isEmpty then []
  else
    let ids := scored.map (fun s => s.program_id)
    let programs := program_table.filter (fun p => decide (p.id ∈ ids))
    let by_id := pyDict (programs.map (fun p => (p.id, p)))
    scored.foldl (fun results s =>
      match pyGet by_id s.program_id with
      | none => results
      | some p => results ++ [⟨p.id, p.name, strOrNone p.institution_name,
          strOrNone p.degree_type, p.duration_years, p.cost_total,
          pyRound4 s.score, s.preview⟩]) []


/-- Concrete fixture (Stage-1 example): one occupation embedded as `[3, 4]`
(norm 5) against three pathways embedded as `[3, 4]`, `[0, 0]`, `[4, 3]`. -/
def c2wOccs : List OccupationInfo := [⟨"11-1011.00", "", "", ""⟩]

def c2wOccEmbs : List (List ℝ) := [[3, 4]]

def c2wPws : List PathwayInfo :=
  [⟨"pw0", "", "", ""⟩, ⟨"pw1", "", "", ""⟩, ⟨"pw2", "", "", ""⟩]

def c2wPwEmbs : List (List ℝ) := [[3, 4], [0, 0], [4, 3]]

/-- The similarity row of the fixture occupation. -/
noncomputable def c2wScores : List ℝ :=
  (cosine_similarity_matrix c2wOccEmbs c2wPwEmbs).getD 0 []

/-- Concrete fixture (Stage-2 monotonicity): one program chunk, one program in
pathway `pw1`, one occupation matched to `pw1`. -/
def c5wChunks : List VectorChunkRow := [⟨"program", "p1", "desc", [3, 4]⟩]

def c5wProgs : List (String × String) := [("p1", "pw1")]

def c5wOccs : List OccupationInfo := [⟨"X", "", "", ""⟩]

def c5wOccEmbs : List (List ℝ) := [[3, 4]]

def c5wOTP : List (String × List (String × ℝ)) := [("X", [("pw1", 1)])]

/-- Concrete fixture (search source-type behaviour): a vector store holding a
single chunk whose `chunk_source_type` is `"pathway"`, not `"program"`. -/
def c8wChunks : List VectorChunkRow := [⟨"pathway", "pw1", "t", [3, 4]⟩]

section SortDescLemmas

variable {α : Type} (key : α → ℝ)

lemma insertDesc_perm (x : α) (l : List α) :
    List.Perm (insertDesc key x l) (x :: l) := by
  induction l with
  | nil => simp [insertDesc]
  | cons y ys ih =>
    simp only [insertDesc]
    split
    · exact List.Perm.refl _
    · exact (ih.cons y).trans (List.Perm.swap x y ys)

lemma sortDesc_perm (l : List α) : List.Perm (sortDesc key l) l := by
  induction l with
  | nil => simp [sortDesc]
  | cons x xs ih =>
    exact (insertDesc_perm key x (sortDesc key xs)).trans (ih.cons x)

lemma mem_insertDesc {x a : α} {l : List α} :
    a ∈ insertDesc key x l ↔ a = x ∨ a ∈ l := by
  rw [(insertDesc_perm key x l).mem_iff, List.mem_cons]

lemma mem_sortDesc {a : α} {l : List α} : a ∈ sortDesc key l ↔ a ∈ l :=
  (sortDesc_perm key l).mem_iff

lemma insertDesc_pairwise {x : α} {l : List α}
    (h : l.Pairwise (fun a b => key b ≤ key a)) :
    (insertDesc key x l).Pairwise (fun a b => key b ≤ key a) := by
  induction l with
  | nil => simp [insertDesc]
  | cons y ys ih =>
    rw [List.pairwise_cons] at h
    simp only [insertDesc]
    split
    · rename_i hyx
      refine List.Pairwise.cons ?_ (List.Pairwise.cons h.1 h.2)
      intro z hz
      rcases List.mem_cons.mp hz with rfl | hz
      · exact hyx
      · exact le_trans (h.1 z hz) hyx
    · rename_i hyx
      refine List.Pairwise.cons ?_ (ih h.2)
      intro z hz
      rcases (mem_insertDesc key).mp hz with rfl | hz
      · exact le_of_not_le hyx
      · exact h.1 z hz

lemma sortDesc_pairwise (l : List α) :
    (sortDesc key l).Pairwise (fun a b => key b ≤ key a) := by
  induction l with
  | nil => simp [sortDesc]
  | cons x xs ih => exact insertDesc_pairwise key ih

lemma insertDesc_append_right {x : α} (A : List α) {B : List α}
    (hB : ∀ b ∈ B, key b ≤ key x) :
    insertDesc key x (A ++ B) = insertDesc key x A ++ B := by
  induction A with
  | nil =>
    cases B with
    | nil => simp [insertDesc]
    | cons b bs =>
      simp only [List.nil_append, insertDesc]
      rw [if_pos (hB b (List.mem_cons_self b bs))]
      rfl
  | cons y ys ih =>
    simp only [List.cons_append, insertDesc]
    split
    · simp
    · exact congrArg (fun t => y :: t) ih

lemma insertDesc_append_left {x : α} (A : List α) {B : List α}
    (hA : ∀ a ∈ A, ¬ key a ≤ key x) :
    insertDesc key x (A ++ B) = A ++ insertDesc key x B := by
  induction A with
  | nil => simp
  | cons y ys ih =>
    simp only [List.cons_append, insertDesc]
    rw [if_neg (hA y (List.mem_cons_self y ys))]
    exact congrArg (fun t => y :: t) (ih (fun a ha => hA a (List.mem_cons_of_mem y ha)))

/-- The stable descending sort of a list splits as the sort of its elements
with key `≥ c` followed by the sort of the rest. -/
lemma sortDesc_split (c : ℝ) (l : List α) :
    sortDesc key l
      = sortDesc key (l.filter (fun a => decide (c ≤ key a)))
        ++ sortDesc key (l.filter (fun a => !(decide (c ≤ key a)))) := by
  induction l with
  | nil => simp [sortDesc]
  | cons x xs ih =>
    by_cases hx : c ≤ key x
    · have hfilter :
          (x :: xs).filter (fun a => decide (c ≤ key a))
            = x :: xs.filter (fun a => decide (c ≤ key a)) := by
        simp [List.filter_cons, hx]
      have hfilter2 :
          (x :: xs).filter (fun a => !(decide (c ≤ key a)))
            = xs.filter (fun a => !(decide (c ≤ key a))) := by
        simp [List.filter_cons, hx]
      rw [hfilter, hfilter2]
      show insertDesc key x (sortDesc key xs) = _
      rw [ih, insertDesc_append_right key _ ?_]
      · rfl
      · intro b hb
        have hb' := (mem_sortDesc key).mp hb
        have := List.of_mem_filter hb'
        simp only [Bool.not_eq_true', decide_eq_false_iff_not] at this
        exact le_trans (le_of_not_le this) hx
    · have hfilter :
          (x :: xs).filter (fun a => decide (c ≤ key a))
            = xs.filter (fun a => decide (c ≤ key a)) := by
        simp [List.filter_cons, hx]
      have hfilter2 :
          (x :: xs).filter (fun a => !(decide (c ≤ key a)))
            = x :: xs.filter (fun a => !(decide (c ≤ key a))) := by
        simp [List.filter_cons, hx]
      rw [hfilter, hfilter2]
      show insertDesc key x (sortDesc key xs) = _
      rw [ih, insertDesc_append_left key _ ?_]
      · rfl
      · intro a ha
        have ha' := (mem_sortDesc key).mp ha
        have := List.of_mem_filter ha'
        simp only [decide_eq_true_eq] at this
        intro hax
        exact hx (le_trans this hax)

/-- Membership in a truncated list is preserved when the list grows on the
right. -/
lemma mem_take_append {β : Type} {a : β} {n : ℕ} {X Y : List β}
    (h : a ∈ X.take n) : a ∈ (X ++ Y).take n := by
  rw [List.take_append_eq_append_take]
  exact List.mem_append_left _ h

end SortDescLemmas

section PyDictLemmas

variable {κ : Type} {β : Type} [DecidableEq κ]

lemma pyGet_nil (k : κ) : pyGet ([] : List (κ × β)) k = none := rfl

lemma pyGet_cons (a : κ) (b : β) (rest : List (κ × β)) (k : κ) :
    pyGet ((a, b) :: rest) k = if a = k then some b else pyGet rest k := by
  by_cases h : a = k <;> simp [pyGet, List.find?_cons, h]

lemma mem_pyInsert {d : List (κ × β)} {k : κ} {v : β} {x : κ × β}
    (h : x ∈ pyInsert d k v) : x = (k, v) ∨ x ∈ d := by
  induction d with
  | nil => simpa [pyInsert] using h
  | cons p rest ih =>
    obtain ⟨a, b⟩ := p
    simp only [pyInsert] at h
    split at h
    · rcases List.mem_cons.mp h with rfl | h
      · exact Or.inl rfl
      · exact Or.inr (List.mem_cons_of_mem _ h)
    · rcases List.mem_cons.mp h with rfl | h
      · exact Or.inr (List.mem_cons_self _ _)
      · rcases ih h with h | h
        · exact Or.inl h
        · exact Or.inr (List.mem_cons_of_mem _ h)

lemma mem_pyInsert_of_mem_ne {d : List (κ × β)} {k : κ} {v : β} {x : κ × β}
    (hx : x ∈ d) (hne : x.1 ≠ k) : x ∈ pyInsert d k v := by
  induction d with
  | nil => cases hx
  | cons p rest ih =>
    obtain ⟨a, b⟩ := p
    simp only [pyInsert]
    split
    · rename_i hak
      rcases List.mem_cons.mp hx with rfl | hx
      · exact absurd hak hne
      · exact List.mem_cons_of_mem _ hx
    · rcases List.mem_cons.mp hx with rfl | hx
      · exact List.mem_cons_self _ _
      · exact List.mem_cons_of_mem _ (ih hx)

lemma pyGet_pyInsert_self (d : List (κ × β)) (k : κ) (v : β) :
    pyGet (pyInsert d k v) k = some v := by
  induction d with
  | nil => simp [pyInsert, pyGet_cons]
  | cons p rest ih =>
    obtain ⟨a, b⟩ := p
    simp only [pyInsert]
    split
    · simp [pyGet_cons]
    · rename_i hak
      rw [pyGet_cons, if_neg hak, ih]

lemma pyGet_pyInsert_ne (d : List (κ × β)) {k k' : κ} (h : k' ≠ k) (v : β) :
    pyGet (pyInsert d k v) k' = pyGet d k' := by
  induction d with
  | nil =>
    show pyGet [(k, v)] k' = pyGet [] k'
    rw [pyGet_cons, if_neg (fun he => h he.symm)]
  | cons p rest ih =>
    obtain ⟨a, b⟩ := p
    simp only [pyInsert]
    split
    · rename_i hak
      subst hak
      rw [pyGet_cons, pyGet_cons, if_neg (fun he => h he.symm),
        if_neg (fun he => h he.symm)]
    · rw [pyGet_cons, pyGet_cons, ih]

lemma pyGet_mem {d : List (κ × β)} {k : κ} {v : β}
    (h : pyGet d k = some v) : (k, v) ∈ d := by
  induction d with
  | nil => simp [pyGet_nil] at h
  | cons p rest ih =>
    obtain ⟨a, b⟩ := p
    rw [pyGet_cons] at h
    split at h
    · rename_i hak
      obtain rfl := Option.some_inj.mp h
      subst hak
      exact List.mem_cons_self _ _
    · exact List.mem_cons_of_mem _ (ih h)

lemma pyGet_isSome_pyInsert (d : List (κ × β)) (k k' : κ) (v : β)
    (h : (pyGet d k').isSome ∨ k' = k) :
    (pyGet (pyInsert d k v) k').isSome := by
  by_cases hk : k' = k
  · subst hk; rw [pyGet_pyInsert_self]; rfl
  · rcases h with h | h
    · rwa [pyGet_pyInsert_ne d hk]
    · exact absurd h hk

/-- Every entry of the dict built from a pair list is one of the pairs. -/
lemma mem_pyDict {l : List (κ × β)} {x : κ × β} (h : x ∈ pyDict l) : x ∈ l := by
  suffices H : ∀ (l : List (κ × β)) (acc : List (κ × β)) (x : κ × β),
      x ∈ l.foldl (fun d p => pyInsert d p.1 p.2) acc → x ∈ acc ∨ x ∈ l by
    rcases H l [] x h with h' | h'
    · cases h'
    · exact h'
  intro l
  induction l with
  | nil => intro acc x h; exact Or.inl h
  | cons p rest ih =>
    intro acc x h
    rw [List.foldl_cons] at h
    rcases ih _ x h with h' | h'
    · rcases mem_pyInsert h' with h'' | h''
      · right
        rw [h'']
        exact List.mem_cons_self _ _
      · exact Or.inl h''
    · exact Or.inr (List.mem_cons_of_mem _ h')

/-- The keys of a `pyInsert` result are the old keys plus possibly `k`. -/
lemma keys_nodup_pyInsert {d : List (κ × β)} {k : κ} {v : β}
    (h : (d.map Prod.fst).Nodup) :
    ((pyInsert d k v).map Prod.fst).Nodup := by
  induction d with
  | nil => simp [pyInsert]
  | cons p rest ih =>
    obtain ⟨a, b⟩ := p
    simp only [pyInsert]
    split
    · rename_i hak
      subst hak
      simpa using h
    · rename_i hak
      simp only [List.map_cons, List.nodup_cons] at h ⊢
      constructor
      · intro hmem
        rcases List.mem_map.mp hmem with ⟨y, hy, hy1⟩
        rcases mem_pyInsert hy with rfl | hy'
        · exact hak hy1.symm
        · exact h.1 (List.mem_map.mpr ⟨y, hy', hy1⟩)
      · exact ih h.2

end PyDictLemmas

section FoldInsertLemmas

variable {κ : Type} {β : Type} {γ : Type} [DecidableEq κ]

lemma foldInsert_cons (kf : γ → κ) (mv : γ → Option β) (j : γ) (rest : List γ)
    (acc : List (κ × β)) :
    foldInsert kf mv (j :: rest) acc
      = foldInsert kf mv rest
          (match mv j with
           | none => acc
           | some v => pyInsert acc (kf j) v) := rfl

lemma pyGet_foldInsert_of_not_key (kf : γ → κ) (mv : γ → Option β)
    {items : List γ} {k : κ} (acc : List (κ × β))
    (h : ∀ it ∈ items, kf it ≠ k) :
    pyGet (foldInsert kf mv items acc) k = pyGet acc k := by
  induction items generalizing acc with
  | nil => rfl
  | cons j rest ih =>
    rw [foldInsert_cons]
    cases hmv : mv j with
    | none =>
      simp only [hmv]
      exact ih acc (fun it hit => h it (List.mem_cons_of_mem _ hit))
    | some v =>
      simp only [hmv]
      rw [ih _ (fun it hit => h it (List.mem_cons_of_mem _ hit))]
      exact pyGet_pyInsert_ne acc (fun he => h j (List.mem_cons_self _ _) he.symm) v

/-- When exactly one item of the list carries the key `k`, the dict's value at
`k` is determined by that item's guarded value. -/
lemma pyGet_foldInsert_of_unique (kf : γ → κ) (mv : γ → Option β)
    {items : List γ} {k : κ} {it : γ} (acc : List (κ × β))
    (hmem : it ∈ items) (hk : kf it = k)
    (huniq : ∀ it' ∈ items, kf it' = k → it' = it) :
    pyGet (foldInsert kf mv items acc) k
      = match mv it with
        | none => pyGet acc k
        | some v => some v := by
  induction items generalizing acc with
  | nil => cases hmem
  | cons j rest ih =>
    rw [foldInsert_cons]
    by_cases hjk : kf j = k
    · have hj : j = it := huniq j (List.mem_cons_self _ _) hjk
      subst hj
      by_cases hrest : j ∈ rest
      · cases hmv : mv j with
        | none =>
          simp only [hmv]
          rw [ih acc hrest (fun it' h' hk' => huniq it' (List.mem_cons_of_mem _ h') hk'), hmv]
        | some v =>
          simp only [hmv]
          rw [ih (pyInsert acc (kf j) v) hrest
            (fun it' h' hk' => huniq it' (List.mem_cons_of_mem _ h') hk'), hmv]
      · have hnone : ∀ it' ∈ rest, kf it' ≠ k := by
          intro it' h' hk'
          exact hrest ((huniq it' (List.mem_cons_of_mem _ h') hk') ▸ h')
        cases hmv : mv j with
        | none =>
          simp only [hmv]
          exact pyGet_foldInsert_of_not_key kf mv acc hnone
        | some v =>
          simp only [hmv]
          rw [pyGet_foldInsert_of_not_key kf mv _ hnone, ← hjk]
          exact pyGet_pyInsert_self acc (kf j) v
    · have hit : it ∈ rest := by
        rcases List.mem_cons.mp hmem with rfl | h'
        · exact absurd hk hjk
        · exact h'
      cases hmv : mv j with
      | none =>
        simp only [hmv]
        exact ih acc hit (fun it' h' hk' => huniq it' (List.mem_cons_of_mem _ h') hk')
      | some v =>
        simp only [hmv]
        rw [ih (pyInsert acc (kf j) v) hit
          (fun it' h' hk' => huniq it' (List.mem_cons_of_mem _ h') hk')]
        cases mv it with
        | none => exact pyGet_pyInsert_ne acc (fun he => hjk he.symm) v
        | some w => rfl

/-- Every entry of the fold result satisfies `P` as soon as the initial dict's
entries do and every guarded value does. -/
lemma forall_mem_foldInsert (kf : γ → κ) (mv : γ → Option β)
    {P : κ × β → Prop} {items : List γ} {acc : List (κ × β)}
    (hacc : ∀ x ∈ acc, P x)
    (hval : ∀ it ∈ items, ∀ v, mv it = some v → P (kf it, v)) :
    ∀ x ∈ foldInsert kf mv items acc, P x := by
  induction items generalizing acc with
  | nil => exact hacc
  | cons j rest ih =>
    rw [foldInsert_cons]
    cases hmv : mv j with
    | none =>
      simp only [hmv]
      exact ih hacc (fun it h' => hval it (List.mem_cons_of_mem _ h'))
    | some v =>
      simp only [hmv]
      refine ih ?_ (fun it h' => hval it (List.mem_cons_of_mem _ h'))
      intro x hx
      rcases mem_pyInsert hx with rfl | hx'
      · exact hval j (List.mem_cons_self _ _) v hmv
      · exact hacc x hx'

end FoldInsertLemmas

lemma stage1_map_eq_foldInsert (occupation_infos : List OccupationInfo)
    (occupation_embeddings : List (List ℝ)) (pathway_infos : List PathwayInfo)
    (pathway_embeddings : List (List ℝ)) (top_k : ℕ) (threshold : ℝ) :
    stage1_map_occupations_to_pathways occupation_infos occupation_embeddings
        pathway_infos pathway_embeddings top_k threshold
      = foldInsert (fun oc => oc.1.occ_code)
          (stage1_entry pathway_infos top_k threshold)
          (occupation_infos.zip
            (cosine_similarity_matrix occupation_embeddings pathway_embeddings)) [] := by
  rw [stage1_map_occupations_to_pathways, foldInsert]
  refine List.foldl_ext _ _ _ (fun acc oc _ => ?_)
  show (if (stage1_select pathway_infos oc.2 top_k threshold).isEmpty then acc
        else pyInsert acc oc.1.occ_code (stage1_select pathway_infos oc.2 top_k threshold)) = _
  by_cases h : (stage1_select pathway_infos oc.2 top_k threshold).isEmpty <;>
    simp [stage1_entry, h]

lemma stage2_map_eq_foldInsert (chunks : List VectorChunkRow)
    (programs : List (String × String)) (occupation_infos : List OccupationInfo)
    (occupation_embeddings : List (List ℝ))
    (occ_to_pathways : List (String × List (String × ℝ)))
    (threshold : ℝ) (max_programs_per_occ : ℕ) :
    stage2_map_occupations_to_programs chunks programs occupation_infos
        occupation_embeddings occ_to_pathways threshold max_programs_per_occ
      = foldInsert (fun oc => oc.1.occ_code)
          (stage2_entry chunks programs occ_to_pathways threshold max_programs_per_occ)
          (occupation_infos.zip occupation_embeddings) [] := by
  rw [stage2_map_occupations_to_programs, foldInsert]
  refine List.foldl_ext _ _ _ (fun acc oc _ => ?_)
  show (match pyGet occ_to_pathways oc.1.occ_code with
        | none => acc
        | some pws =>
          let matched_pathways := pws.map (fun x : String × ℝ => x.1)
          let candidate_programs := (stage2_load_program_embeddings chunks).filter
            (fun pc : String × List ℝ =>
              match pyGet (pyDict programs) pc.1 with
              | some pw => decide (pw ∈ matched_pathways)
              | none => false)
          if candidate_programs.isEmpty then acc
          else
            let scores := stage2_select oc.2 candidate_programs threshold max_programs_per_occ
            if scores.isEmpty then acc
            else pyInsert acc oc.1.occ_code scores) = _
  cases hpw : pyGet occ_to_pathways oc.1.occ_code with
  | none => simp [stage2_entry, hpw]
  | some pws =>
    simp only [stage2_entry, hpw]
    by_cases hc : ((stage2_load_program_embeddings chunks).filter
        (fun pc : String × List ℝ =>
          match pyGet (pyDict programs) pc.1 with
          | some pw => decide (pw ∈ pws.map (fun x : String × ℝ => x.1))
          | none => false)).isEmpty
    · simp [hc]
    · by_cases hs : (stage2_select oc.2
          ((stage2_load_program_embeddings chunks).filter
            (fun pc : String × List ℝ =>
              match pyGet (pyDict programs) pc.1 with
              | some pw => decide (pw ∈ pws.map (fun x : String × ℝ => x.1))
              | none => false)) threshold max_programs_per_occ).isEmpty
      · simp [hc, hs]
      · simp [hc, hs]


lemma eps_pos : 0 < eps := by norm_num [eps]

lemma npNorm_nonneg (v : List ℝ) : 0 ≤ npNorm v := Real.sqrt_nonneg _

lemma npNorm_add_eps_pos (v : List ℝ) : 0 < npNorm v + eps :=
  add_pos_of_nonneg_of_pos (npNorm_nonneg v) eps_pos

lemma dot_replicate_zero_left (n : ℕ) (w : List ℝ) :
    dot (List.replicate n 0) w = 0 := by
  induction n generalizing w with
  | zero => simp [dot]
  | succ m ih =>
    cases w with
    | nil => simp [dot]
    | cons b bs =>
      rw [List.replicate_succ]
      simpa [dot] using ih bs

lemma dot_replicate_zero_right (v : List ℝ) (n : ℕ) :
    dot v (List.replicate n 0) = 0 := by
  induction v generalizing n with
  | nil => simp [dot]
  | cons a as ih =>
    cases n with
    | zero => simp [dot]
    | succ m =>
      rw [List.replicate_succ]
      simpa [dot] using ih m

lemma rowNormalize_replicate_zero (n : ℕ) :
    rowNormalize (List.replicate n 0) = List.replicate n 0 := by
  simp [rowNormalize, List.map_replicate]

lemma padTrunc_length (v : List ℝ) (padTo : ℕ) :
    (padTrunc v padTo).length = padTo := by
  unfold padTrunc
  split
  · rename_i h
    simp only [List.length_append, List.length_replicate]
    omega
  · split
    · rename_i h2
      simp only [List.length_take]
      omega
    · rename_i h1 h2
      omega

/-- C9: the epsilon-stabilized cosine computations are total.  Every norm
factor `np.linalg.norm(·) + 1e-8` is strictly positive, so no division by
zero occurs anywhere (in `cosine_similarity_matrix`, in Stage 2's inline
score, or in `search_programs`, whose `denom == 0` guard can never fire); and
the similarity of the all-zero vector with anything is exactly 0 in the real
model (the "≈0 up to the epsilon perturbation" of the float code). -/
theorem cosine_similarity_epsilon_total :
    (∀ v : List ℝ, 0 < npNorm v + eps)
    ∧ (∀ v w : List ℝ, (npNorm v + eps) * (npNorm w + eps) ≠ 0)
    ∧ (∀ (n : ℕ) (B : List (List ℝ)),
        cosine_similarity_matrix [List.replicate n 0] B
          = [B.map (fun _ => 0)])
    ∧ (∀ (A : List (List ℝ)) (n : ℕ),
        cosine_similarity_matrix A [List.replicate n 0]
          = A.map (fun _ => [0]))
    ∧ (∀ (n : ℕ) (v : List ℝ),
        stage2_score (List.replicate n 0) v = 0
        ∧ stage2_score v (List.replicate n 0) = 0) := by
  refine ⟨npNorm_add_eps_pos, ?_, ?_, ?_, ?_⟩
  · intro v w
    exact (mul_pos (npNorm_add_eps_pos v) (npNorm_add_eps_pos w)).ne'
  · intro n B
    simp [cosine_similarity_matrix, rowNormalize_replicate_zero,
      dot_replicate_zero_left]
  · intro A n
    simp [cosine_similarity_matrix, rowNormalize_replicate_zero,
      dot_replicate_zero_right]
  · intro n v
    constructor
    · simp [stage2_score, dot_replicate_zero_left]
    · simp [stage2_score, dot_replicate_zero_right]

/-- C4: Stage 3 has replace-all semantics.  A non-dry run produces, as the
table's new contents, exactly the computed association rows — independently
of the table's prior contents — and is therefore idempotent: running it a
second time on the same Stage-2 output leaves the table identical. -/
theorem stage3_replace_all_semantics
    (table table' : List AssociationRow)
    (occ_to_programs : List (String × List (String × ℝ))) :
    (stage3_populate_association_table table occ_to_programs false).1
        = build_associations occ_to_programs
    ∧ (stage3_populate_association_table table occ_to_programs false).1
        = (stage3_populate_association_table table' occ_to_programs false).1
    ∧ (stage3_populate_association_table
          (stage3_populate_association_table table occ_to_programs false).1
          occ_to_programs false).1
        = (stage3_populate_association_table table occ_to_programs false).1 :=
  ⟨rfl, rfl, rfl⟩

/-- C6: with `dry_run = True`, Stage 3 leaves the association table exactly
as it was — no delete and no insert — while still returning the same count
of would-be associations that a live run would report. -/
theorem stage3_dry_run_no_effect (table : List AssociationRow)
    (occ_to_programs : List (String × List (String × ℝ))) :
    stage3_populate_association_table table occ_to_programs true
      = (table, (build_associations occ_to_programs).length)
    ∧ (stage3_populate_association_table table occ_to_programs true).2
        = (stage3_populate_association_table table occ_to_programs false).2 :=
  ⟨rfl, rfl⟩

set_option maxRecDepth 4000 in
/-- C3 counterexample: a raw 384-dimensional model vector (the native
dimension of `all-MiniLM-L6-v2`) is written to the vector store unchanged by
`embed_programs.embed_texts_local` — its stored length is 384, not the
claimed 1024 — whereas the pipeline-side embedding function pads the same
raw vector to 1024. -/
theorem program_chunk_embeddings_not_padded_cex :
    ((ep_embed_texts_local [List.replicate 384 (1 : ℝ)]).getD 0 []).length = 384
    ∧ ((boa_embed_texts_local [List.replicate 384 (1 : ℝ)]).getD 0 []).length = 1024
    ∧ (384 : ℕ) ≠ 1024 := by
  refine ⟨?_, ?_, by decide⟩
  · rw [show ((ep_embed_texts_local [List.replicate 384 (1 : ℝ)]).getD 0 [])
        = List.replicate 384 (1 : ℝ) from rfl, List.length_replicate]
  · rw [show ((boa_embed_texts_local [List.replicate 384 (1 : ℝ)]).getD 0 [])
        = padTrunc (List.replicate 384 (1 : ℝ)) 1024 from rfl, padTrunc_length]

/-- C3 amended: the pad-to-`D`/truncate-to-`D` normalization (D = 1024 by
default) is applied at embedding time by the batch pipeline's
`embed_texts_local` (occupation and pathway embeddings) and by the query
path's `_embed_query_local`, and never at compare time; but the
program-chunk embedding job (`embed_programs.py`) stores the raw model/API
vectors unchanged, so stored program-chunk embeddings have dimension 1024
only when the producing model natively emits 1024 dimensions. -/
theorem embedding_padding_amended :
    (∀ (raws : List (List ℝ)) (padTo : ℕ),
        (boa_embed_texts_local raws padTo).Forall (fun v => v.length = padTo))
    ∧ (∀ (raw : List ℝ) (padTo : ℕ), (embed_query_local raw padTo).length = padTo)
    ∧ (∀ raws : List (List ℝ),
        ep_embed_texts_local raws = raws ∧ ep_embed_texts_voyage raws = raws) := by
  refine ⟨?_, ?_, fun raws => ⟨rfl, rfl⟩⟩
  · intro raws padTo
    rw [List.forall_iff_forall_mem]
    intro v hv
    rcases List.mem_map.mp hv with ⟨w, _, rfl⟩
    exact padTrunc_length w padTo
  · intro raw padTo
    exact padTrunc_length raw padTo

/-- Any pair selected by Stage 2 for an occupation comes from the candidate
list, carries that candidate's cosine score, and meets the threshold. -/
lemma mem_stage2_select {occ_emb : List ℝ} {candidates : List (String × List ℝ)}
    {threshold : ℝ} {max_programs_per_occ : ℕ} {ps : String × ℝ}
    (h : ps ∈ stage2_select occ_emb candidates threshold max_programs_per_occ) :
    ∃ pc ∈ candidates, ps.1 = pc.1 ∧ ps.2 = stage2_score occ_emb pc.2
      ∧ threshold ≤ ps.2 := by
  have h1 := List.mem_of_mem_take h
  have h2 := (mem_sortDesc (fun x : String × ℝ => x.2)).mp h1
  rcases List.mem_filterMap.mp h2 with ⟨pc, hpc, hf⟩
  refine ⟨pc, hpc, ?_⟩
  by_cases hθ : threshold ≤ stage2_score occ_emb pc.2
  · rw [if_pos hθ] at hf
    obtain rfl := Option.some_inj.mp hf
    exact ⟨rfl, rfl, hθ⟩
  · rw [if_neg hθ] at hf
    cases hf

/-- C1: pathway membership is a hard filter in Stage 2.  For every occupation
entry of the Stage-2 result and every `(program_id, score)` pair it holds,
the program's pathway (looked up in the `programs` table) is among the
occupation's matched pathways from Stage 1; a program whose pathway is not
matched — or which has no row in the `programs` table — never appears,
whatever its similarity score. -/
theorem stage2_pathway_hard_filter
    (chunks : List VectorChunkRow) (programs : List (String × String))
    (occupation_infos : List OccupationInfo)
    (occupation_embeddings : List (List ℝ))
    (occ_to_pathways : List (String × List (String × ℝ)))
    (threshold : ℝ) (max_programs_per_occ : ℕ) :
    (stage2_map_occupations_to_programs chunks programs occupation_infos
        occupation_embeddings occ_to_pathways threshold max_programs_per_occ).Forall
      (fun op =>
        op.2.Forall (fun ps =>
          match pyGet (pyDict programs) ps.1 with
          | some pw =>
              pw ∈ ((pyGet occ_to_pathways op.1).getD []).map
                (fun x : String × ℝ => x.1)
          | none => False)) := by
  rw [List.forall_iff_forall_mem]
  intro op hop
  rw [stage2_map_eq_foldInsert] at hop
  revert op hop
  refine forall_mem_foldInsert _ _ (by intro x hx; cases hx) ?_
  intro oc _ v hv
  rw [stage2_entry] at hv
  cases hpw : pyGet occ_to_pathways oc.1.occ_code with
  | none => rw [hpw] at hv; cases hv
  | some pws =>
    rw [hpw] at hv
    simp only at hv
    split at hv
    · cases hv
    · split at hv
      · cases hv
      · obtain rfl := Option.some_inj.mp hv
        rw [List.forall_iff_forall_mem]
        intro ps hps
        rcases mem_stage2_select hps with ⟨pc, hpc, hps1, _, _⟩
        have hfilter := List.of_mem_filter hpc
        rw [hps1]
        cases hget : pyGet (pyDict programs) pc.1 with
        | none => rw [hget] at hfilter; cases hfilter
        | some pw =>
          rw [hget] at hfilter
          simp only [decide_eq_true_eq] at hfilter
          simpa using hfilter

/-- A left fold that appends one element per successful lookup is a
`filterMap`. -/
lemma foldl_guard_append {A B C : Type} (sel : A → Option C) (mk : A → C → B)
    (l : List A) (acc : List B) :
    l.foldl (fun res s =>
        match sel s with
        | none => res
        | some c => res ++ [mk s c]) acc
      = acc ++ l.filterMap (fun s => (sel s).map (mk s)) := by
  induction l generalizing acc with
  | nil => simp
  | cons s rest ih =>
    rw [List.foldl_cons]
    cases hs : sel s with
    | none => simp only [hs]; rw [ih]; simp [hs]
    | some c => simp only [hs]; rw [ih]; simp [hs]

lemma pyGet_pyDict_keyed {P : Type} (progs : List P) (idOf : P → String)
    {k : String} {p : P}
    (h : pyGet (pyDict (progs.map (fun p => (idOf p, p)))) k = some p) :
    p ∈ progs ∧ idOf p = k := by
  have hmem := mem_pyDict (pyGet_mem h)
  rcases List.mem_map.mp hmem with ⟨q, hq, heq⟩
  obtain ⟨h1, h2⟩ := Prod.mk.injEq .. ▸ heq
  cases h2
  exact ⟨hq, h1⟩

lemma pyGet_foldl_pyInsert_isSome {β : Type} (l : List (String × β))
    (acc : List (String × β)) (k : String)
    (h : (pyGet acc k).isSome ∨ ∃ pair ∈ l, pair.1 = k) :
    (pyGet (l.foldl (fun d p => pyInsert d p.1 p.2) acc) k).isSome := by
  induction l generalizing acc with
  | nil =>
    rcases h with h | ⟨pair, hp, _⟩
    · exact h
    · cases hp
  | cons p rest ih =>
    rw [List.foldl_cons]
    refine ih (pyInsert acc p.1 p.2) ?_
    rcases h with h | ⟨pair, hp, hk⟩
    · exact Or.inl (pyGet_isSome_pyInsert acc p.1 k p.2 (Or.inl h))
    · rcases List.mem_cons.mp hp with rfl | hp'
      · exact Or.inl (pyGet_isSome_pyInsert acc pair.1 k pair.2 (Or.inr hk.symm))
      · exact Or.inr ⟨pair, hp', hk⟩

lemma pyGet_pyDict_isSome_of_key {β : Type} (l : List (String × β)) (k : String)
    (h : ∃ pair ∈ l, pair.1 = k) : (pyGet (pyDict l) k).isSome :=
  pyGet_foldl_pyInsert_isSome l [] k (Or.inr h)

/-- `hydrate_programs` as a `filterMap` over the scored list (proof helper). -/
lemma hydrate_programs_eq_filterMap (program_table : List ProgramRow)
    (scored : List ScoredProgram) :
    hydrate_programs program_table scored
      = scored.filterMap (fun s =>
          (pyGet (pyDict ((program_table.filter (fun p =>
              decide (p.id ∈ scored.map (fun s => s.program_id)))).map
                (fun p => (p.id, p)))) s.program_id).map
            (fun p => (⟨p.id, p.name, strOrNone p.institution_name,
              strOrNone p.degree_type, p.duration_years, p.cost_total,
              pyRound4 s.score, s.preview⟩ : HydratedResult))) := by
  by_cases hempty : scored.isEmpty
  · rw [List.isEmpty_iff] at hempty
    subst hempty
    rfl
  · rw [hydrate_programs, if_neg hempty]
    show scored.foldl (fun results s =>
        match pyGet (pyDict ((program_table.filter (fun p =>
            decide (p.id ∈ scored.map (fun s => s.program_id)))).map
              (fun p => (p.id, p)))) s.program_id with
        | none => results
        | some p => results ++ [(⟨p.id, p.name, strOrNone p.institution_name,
            strOrNone p.degree_type, p.duration_years, p.cost_total,
            pyRound4 s.score, s.preview⟩ : HydratedResult)]) [] = _
    generalize pyDict ((program_table.filter (fun p =>
        decide (p.id ∈ scored.map (fun s => s.program_id)))).map
          (fun p => (p.id, p))) = D
    suffices H : ∀ (l : List ScoredProgram) (acc : List HydratedResult),
        l.foldl (fun results s =>
          match pyGet D s.program_id with
          | none => results
          | some p => results ++ [(⟨p.id, p.name, strOrNone p.institution_name,
              strOrNone p.degree_type, p.duration_years, p.cost_total,
              pyRound4 s.score, s.preview⟩ : HydratedResult)]) acc
          = acc ++ l.filterMap (fun s =>
              (pyGet D s.program_id).map
                (fun p => (⟨p.id, p.name, strOrNone p.institution_name,
                  strOrNone p.degree_type, p.duration_years, p.cost_total,
                  pyRound4 s.score, s.preview⟩ : HydratedResult))) by
      exact (H scored []).trans (List.nil_append _)
    intro l
    induction l with
    | nil => intro acc; simp
    | cons s rest ih =>
      intro acc
      rw [List.foldl_cons]
      cases hget : pyGet D s.program_id with
      | none =>
        simp only [hget]
        rw [ih acc, List.filterMap_cons]
        simp only [hget, Option.map_none']
      | some p =>
        simp only [hget]
        rw [ih (acc ++ [_]), List.filterMap_cons]
        simp only [hget, Option.map_some']
        simp [List.append_assoc]

/-- C10: `hydrate_programs` walks the scored list in order, keeps exactly the
entries whose `program_id` has a matching row in the `programs` table
(silently dropping the rest), and therefore returns at most as many results
as it was given — never more, and possibly fewer, without raising. -/
theorem hydrate_programs_order_and_omission
    (program_table : List ProgramRow) (scored : List ScoredProgram) :
    (hydrate_programs program_table scored).map (fun r => r.program_id)
        = (scored.filter (fun s =>
            decide (∃ p ∈ program_table, p.id = s.program_id))).map
          (fun s => s.program_id)
    ∧ (hydrate_programs program_table scored).length ≤ scored.length := by
  rw [hydrate_programs_eq_filterMap]
  refine ⟨?_, List.length_filterMap_le _ _⟩
  have hsub : ∀ s ∈ scored, s.program_id ∈ scored.map (fun s => s.program_id) :=
    fun s hs => List.mem_map.mpr ⟨s, hs, rfl⟩
  suffices H : ∀ l : List ScoredProgram,
      (∀ s ∈ l, s.program_id ∈ scored.map (fun s => s.program_id)) →
      (l.filterMap (fun s =>
          (pyGet (pyDict ((program_table.filter (fun p =>
              decide (p.id ∈ scored.map (fun s => s.program_id)))).map
                (fun p => (p.id, p)))) s.program_id).map
            (fun p => (⟨p.id, p.name, strOrNone p.institution_name,
              strOrNone p.degree_type, p.duration_years, p.cost_total,
              pyRound4 s.score, s.preview⟩ : HydratedResult)))).map
        (fun r => r.program_id)
        = (l.filter (fun s =>
            decide (∃ p ∈ program_table, p.id = s.program_id))).map
          (fun s => s.program_id) by
    exact H scored hsub
  intro l hl
  induction l with
  | nil => simp
  | cons s rest ih =>
    rw [List.filterMap_cons, List.filter_cons]
    cases hget : pyGet (pyDict ((program_table.filter (fun p =>
        decide (p.id ∈ scored.map (fun s => s.program_id)))).map
          (fun p => (p.id, p)))) s.program_id with
    | none =>
      have hnone : ¬ ∃ p ∈ program_table, p.id = s.program_id := by
        rintro ⟨p, hp, hpid⟩
        have hkey : (pyGet (pyDict ((program_table.filter (fun p =>
            decide (p.id ∈ scored.map (fun s => s.program_id)))).map
              (fun p => (p.id, p)))) s.program_id).isSome := by
          refine pyGet_pyDict_isSome_of_key _ _ ⟨(p.id, p), ?_, hpid⟩
          refine List.mem_map.mpr ⟨p, ?_, rfl⟩
          refine List.mem_filter.mpr ⟨hp, ?_⟩
          rw [hpid]
          exact decide_eq_true (hl s (List.mem_cons_self _ _))
        rw [hget] at hkey
        cases hkey
      simp only [Option.map_none', decide_eq_false hnone]
      exact ih (fun x hx => hl x (List.mem_cons_of_mem _ hx))
    | some p =>
      have hid : p.id = s.program_id :=
        (pyGet_pyDict_keyed _ (fun p : ProgramRow => p.id) hget).2
      have hmem : p ∈ program_table :=
        (List.mem_filter.mp
          (pyGet_pyDict_keyed _ (fun p : ProgramRow => p.id) hget).1).1
      have hyes : ∃ q ∈ program_table, q.id = s.program_id := ⟨p, hmem, hid⟩
      simp only [Option.map_some', decide_eq_true hyes]
      rw [if_pos trivial, List.map_cons, List.map_cons]
      rw [ih (fun x hx => hl x (List.mem_cons_of_mem _ hx))]
      exact congrArg (fun t => t :: _) hid

lemma argsortDesc_perm (scores : List ℝ) :
    List.Perm (argsortDesc scores) (List.range scores.length) :=
  sortDesc_perm _ _

lemma argsortDesc_pairwise (scores : List ℝ) :
    (argsortDesc scores).Pairwise
      (fun i j => scores.getD j 0 ≤ scores.getD i 0) :=
  sortDesc_pairwise _ _

lemma getD_eq_getElem_of_lt (l : List ℝ) {i : ℕ} (h : i < l.length) :
    l.getD i 0 = l[i] := by
  rw [List.getD_eq_getElem?_getD, List.getElem?_eq_getElem h, Option.getD_some]

/-- Membership characterization of the Stage-1 per-occupation selection: a
pair is retained exactly when it is the `(pathway_id, score)` of one of the
top-`top_k` indices whose score meets the threshold. -/
lemma mem_stage1_select_iff (pathway_infos : List PathwayInfo) (scores : List ℝ)
    (top_k : ℕ) (threshold : ℝ) (ps : String × ℝ) :
    ps ∈ stage1_select pathway_infos scores top_k threshold ↔
      ∃ idx ∈ (argsortDesc scores).take top_k,
        threshold ≤ scores.getD idx 0
        ∧ ps = ((pathway_infos.getD idx default).id, scores.getD idx 0) := by
  constructor
  · intro h
    rcases List.mem_filterMap.mp h with ⟨idx, hidx, hf⟩
    refine ⟨idx, hidx, ?_⟩
    have hf' : (if threshold ≤ scores.getD idx 0
        then some ((pathway_infos.getD idx default).id, scores.getD idx 0)
        else none) = some ps := hf
    split at hf'
    · rename_i hθ
      exact ⟨hθ, (Option.some_inj.mp hf').symm⟩
    · cases hf'
  · rintro ⟨idx, hidx, hθ, rfl⟩
    refine List.mem_filterMap.mpr ⟨idx, hidx, ?_⟩
    show (if threshold ≤ scores.getD idx 0 then _ else none) = _
    rw [if_pos hθ]

lemma stage1_select_length (pathway_infos : List PathwayInfo) (scores : List ℝ)
    (top_k : ℕ) (threshold : ℝ) :
    (stage1_select pathway_infos scores top_k threshold).length ≤ top_k :=
  le_trans (List.length_filterMap_le _ _) (List.length_take_le _ _)

lemma stage1_select_sorted (pathway_infos : List PathwayInfo) (scores : List ℝ)
    (top_k : ℕ) (threshold : ℝ) :
    (stage1_select pathway_infos scores top_k threshold).Pairwise
      (fun a b => b.2 ≤ a.2) := by
  refine List.Pairwise.filterMap _ ?_ ((argsortDesc_pairwise scores).take)
  intro i j hij b hb b' hb'
  simp only [Option.mem_def] at hb hb'
  split at hb
  · split at hb'
    · obtain rfl := Option.some_inj.mp hb
      obtain rfl := Option.some_inj.mp hb'
      exact hij
    · cases hb'
  · cases hb

lemma stage1_select_threshold (pathway_infos : List PathwayInfo) (scores : List ℝ)
    (top_k : ℕ) (threshold : ℝ) :
    ∀ ps ∈ stage1_select pathway_infos scores top_k threshold, threshold ≤ ps.2 := by
  intro ps hps
  rcases (mem_stage1_select_iff pathway_infos scores top_k threshold ps).mp hps
    with ⟨idx, _, hθ, rfl⟩
  exact hθ

/-- Every retained score dominates the score of every index outside the
top-`top_k` cut. -/
lemma stage1_select_dominates (pathway_infos : List PathwayInfo) (scores : List ℝ)
    (top_k : ℕ) (threshold : ℝ) :
    ∀ ps ∈ stage1_select pathway_infos scores top_k threshold,
      ∀ j ∈ (argsortDesc scores).drop top_k, scores.getD j 0 ≤ ps.2 := by
  intro ps hps j hj
  rcases (mem_stage1_select_iff pathway_infos scores top_k threshold ps).mp hps
    with ⟨idx, hidx, _, rfl⟩
  have hpw := argsortDesc_pairwise scores
  rw [← List.take_append_drop top_k (argsortDesc scores), List.pairwise_append] at hpw
  exact hpw.2.2 idx hidx j hj

lemma stage1_select_empty_of_below (pathway_infos : List PathwayInfo)
    (scores : List ℝ) (top_k : ℕ) (threshold : ℝ)
    (h : ∀ x ∈ scores, x < threshold) :
    stage1_select pathway_infos scores top_k threshold = [] := by
  rw [stage1_select, List.filterMap_eq_nil_iff]
  intro idx hidx
  have hmem : idx ∈ argsortDesc scores := List.mem_of_mem_take hidx
  have hrange : idx ∈ List.range scores.length :=
    (argsortDesc_perm scores).mem_iff.mp hmem
  have hlt : idx < scores.length := List.mem_range.mp hrange
  have hx : scores.getD idx 0 < threshold := by
    rw [getD_eq_getElem_of_lt scores hlt]
    exact h _ (scores.getElem_mem hlt)
  show (if threshold ≤ scores.getD idx 0 then _ else none) = none
  rw [if_neg (not_le.mpr hx)]

/-- A key that occurs on a `Nodup`-keyed list determines its zip entry. -/
lemma zip_unique_key {A B : Type} (keyf : A → String) {l1 : List A} {l2 : List B}
    (hnd : (l1.map keyf).Nodup) {a : A} {b : B} (hmem : (a, b) ∈ l1.zip l2) :
    ∀ p ∈ l1.zip l2, keyf p.1 = keyf a → p = (a, b) := by
  intro p hp hkey
  rcases List.getElem_of_mem hmem with ⟨i, hi, hieq⟩
  rcases List.getElem_of_mem hp with ⟨j, hj, hjeq⟩
  have hi1 : i < l1.length := lt_of_lt_of_le (List.length_zip .. ▸ hi) (min_le_left _ _)
  have hj1 : j < l1.length := lt_of_lt_of_le (List.length_zip .. ▸ hj) (min_le_left _ _)
  rw [List.getElem_zip] at hieq hjeq
  have hi2 : i < (l1.map keyf).length := by simpa using hi1
  have hj2 : j < (l1.map keyf).length := by simpa using hj1
  have hl1i : l1[i] = a := congrArg Prod.fst hieq
  have hl1j : l1[j] = p.1 := congrArg Prod.fst hjeq
  have hkeys : (l1.map keyf)[j] = (l1.map keyf)[i] := by
    rw [List.getElem_map, List.getElem_map]
    rw [show l1[j] = p.1 from hl1j, show l1[i] = a from hl1i]
    exact hkey
  have hij : j = i := (List.Nodup.getElem_inj_iff hnd).mp hkeys
  subst hij
  exact hjeq ▸ hieq

/-- C2: Stage-1 selection.  Under the pipeline's guarantee that occupation
codes are distinct (Stage 1 embeds one `OccupationInfo` per DISTINCT code),
for the occupation's similarity row `scores`: the Stage-1 output holds the
occupation's matches exactly when they are nonempty; the matches number at
most `top_k`, are listed in descending score order, all meet the threshold,
are exactly the `(pathway_id, score)` pairs of the top-`top_k` indices whose
score is `≥ threshold`, and dominate every pathway outside the top-`top_k`
cut; an occupation all of whose scores are below the threshold is absent
from the output. -/
theorem stage1_topk_threshold_selection
    (occupation_infos : List OccupationInfo)
    (occupation_embeddings : List (List ℝ))
    (pathway_infos : List PathwayInfo) (pathway_embeddings : List (List ℝ))
    (top_k : ℕ) (threshold : ℝ)
    (hnd : (occupation_infos.map (fun oi => oi.occ_code)).Nodup)
    {oi : OccupationInfo} {scores : List ℝ}
    (hmem : (oi, scores) ∈ occupation_infos.zip
      (cosine_similarity_matrix occupation_embeddings pathway_embeddings)) :
    (pyGet (stage1_map_occupations_to_pathways occupation_infos
        occupation_embeddings pathway_infos pathway_embeddings top_k threshold)
        oi.occ_code
      = if (stage1_select pathway_infos scores top_k threshold).isEmpty then none
        else some (stage1_select pathway_infos scores top_k threshold))
    ∧ (stage1_select pathway_infos scores top_k threshold).length ≤ top_k
    ∧ (stage1_select pathway_infos scores top_k threshold).Pairwise
        (fun a b => b.2 ≤ a.2)
    ∧ (∀ ps ∈ stage1_select pathway_infos scores top_k threshold, threshold ≤ ps.2)
    ∧ (∀ ps : String × ℝ,
        ps ∈ stage1_select pathway_infos scores top_k threshold ↔
          ∃ idx ∈ (argsortDesc scores).take top_k,
            threshold ≤ scores.getD idx 0
            ∧ ps = ((pathway_infos.getD idx default).id, scores.getD idx 0))
    ∧ (∀ ps ∈ stage1_select pathway_infos scores top_k threshold,
        ∀ j ∈ (argsortDesc scores).drop top_k, scores.getD j 0 ≤ ps.2)
    ∧ ((∀ x ∈ scores, x < threshold) →
        pyGet (stage1_map_occupations_to_pathways occupation_infos
          occupation_embeddings pathway_infos pathway_embeddings top_k threshold)
          oi.occ_code = none) := by
  have huniq := zip_unique_key (fun oi : OccupationInfo => oi.occ_code) hnd hmem
  have hmain : pyGet (stage1_map_occupations_to_pathways occupation_infos
      occupation_embeddings pathway_infos pathway_embeddings top_k threshold)
      oi.occ_code
      = if (stage1_select pathway_infos scores top_k threshold).isEmpty then none
        else some (stage1_select pathway_infos scores top_k threshold) := by
    rw [stage1_map_eq_foldInsert]
    rw [pyGet_foldInsert_of_unique (fun oc : OccupationInfo × List ℝ => oc.1.occ_code)
      (stage1_entry pathway_infos top_k threshold) [] hmem rfl
      (fun it' h' hk' => huniq it' h' hk')]
    by_cases hsel : (stage1_select pathway_infos scores top_k threshold).isEmpty
    · simp [stage1_entry, hsel, pyGet_nil]
    · simp [stage1_entry, hsel]
  refine ⟨hmain, stage1_select_length pathway_infos scores top_k threshold,
    stage1_select_sorted pathway_infos scores top_k threshold,
    stage1_select_threshold pathway_infos scores top_k threshold,
    mem_stage1_select_iff pathway_infos scores top_k threshold,
    stage1_select_dominates pathway_infos scores top_k threshold, ?_⟩
  intro h
  rw [hmain, stage1_select_empty_of_below pathway_infos scores top_k threshold h]
  rfl

/-- C2 witness: the fixture instantiates the Stage-1 selection theorem, its
hypotheses discharged concretely. -/
theorem stage1_topk_threshold_selection_witness :
    (c2wOccs.map (fun oi => oi.occ_code)).Nodup
    ∧ ((⟨"11-1011.00", "", "", ""⟩ : OccupationInfo), c2wScores)
        ∈ c2wOccs.zip (cosine_similarity_matrix c2wOccEmbs c2wPwEmbs)
    ∧ (pyGet (stage1_map_occupations_to_pathways c2wOccs c2wOccEmbs c2wPws
          c2wPwEmbs 5 0.25)
        (⟨"11-1011.00", "", "", ""⟩ : OccupationInfo).occ_code
      = if (stage1_select c2wPws c2wScores 5 0.25).isEmpty then none
        else some (stage1_select c2wPws c2wScores 5 0.25)) := by
  have hnd : (c2wOccs.map (fun oi => oi.occ_code)).Nodup := by
    simp [c2wOccs]
  have hmem : ((⟨"11-1011.00", "", "", ""⟩ : OccupationInfo), c2wScores)
      ∈ c2wOccs.zip (cosine_similarity_matrix c2wOccEmbs c2wPwEmbs) :=
    List.mem_singleton.mpr rfl
  exact ⟨hnd, hmem,
    (stage1_topk_threshold_selection c2wOccs c2wOccEmbs c2wPws c2wPwEmbs
      5 0.25 hnd hmem).1⟩

/-- Restricting the lower-threshold Stage-2 score list to scores `≥ hi`
recovers the higher-threshold score list. -/
lemma stage2_filter_high (occ_emb : List ℝ) (candidates : List (String × List ℝ))
    {lo hi : ℝ} (hle : lo ≤ hi) :
    ((candidates.filterMap (fun pc : String × List ℝ =>
        if lo ≤ stage2_score occ_emb pc.2
        then some (pc.1, stage2_score occ_emb pc.2) else none)).filter
      (fun x => decide (hi ≤ x.2)))
      = candidates.filterMap (fun pc : String × List ℝ =>
          if hi ≤ stage2_score occ_emb pc.2
          then some (pc.1, stage2_score occ_emb pc.2) else none) := by
  induction candidates with
  | nil => rfl
  | cons pc rest ih =>
    by_cases hhi : hi ≤ stage2_score occ_emb pc.2
    · have hlo : lo ≤ stage2_score occ_emb pc.2 := le_trans hle hhi
      simp [List.filterMap_cons, hhi, hlo, List.filter_cons, ih]
    · by_cases hlo : lo ≤ stage2_score occ_emb pc.2
      · simp [List.filterMap_cons, hhi, hlo, List.filter_cons, ih]
      · simp [List.filterMap_cons, hhi, hlo, ih]

/-- Stage-2 selection is monotone in the threshold: anything selected at the
higher threshold is still selected at the lower one (same candidates, same
cap). -/
lemma mem_stage2_select_mono (occ_emb : List ℝ)
    (candidates : List (String × List ℝ)) {lo hi : ℝ} (hle : lo ≤ hi) (cap : ℕ)
    {ps : String × ℝ} (h : ps ∈ stage2_select occ_emb candidates hi cap) :
    ps ∈ stage2_select occ_emb candidates lo cap := by
  have e1 : stage2_select occ_emb candidates lo cap
      = ((sortDesc (fun x : String × ℝ => x.2) (candidates.filterMap
          (fun pc : String × List ℝ =>
            if lo ≤ stage2_score occ_emb pc.2
            then some (pc.1, stage2_score occ_emb pc.2) else none)))).take cap := rfl
  have e2 : stage2_select occ_emb candidates hi cap
      = ((sortDesc (fun x : String × ℝ => x.2) (candidates.filterMap
          (fun pc : String × List ℝ =>
            if hi ≤ stage2_score occ_emb pc.2
            then some (pc.1, stage2_score occ_emb pc.2) else none)))).take cap := rfl
  rw [e1, sortDesc_split (fun x : String × ℝ => x.2) hi,
    stage2_filter_high occ_emb candidates hle]
  rw [e2] at h
  exact mem_take_append h

/-- C5: Stage 2 is monotone in `program_threshold`.  With the same inputs
(hence the same candidate programs and similarity scores per occupation, the
pipeline guaranteeing distinct occupation codes) and the same cap, every
`(program, score)` pair produced for an occupation at the higher threshold is
also produced for it at the lower threshold. -/
theorem stage2_program_threshold_monotone
    (chunks : List VectorChunkRow) (programs : List (String × String))
    (occupation_infos : List OccupationInfo)
    (occupation_embeddings : List (List ℝ))
    (occ_to_pathways : List (String × List (String × ℝ)))
    {lo hi : ℝ} (cap : ℕ) (hle : lo ≤ hi)
    (hnd : (occupation_infos.map (fun oi => oi.occ_code)).Nodup)
    (occ : String) (progs_hi : List (String × ℝ))
    (hhi : pyGet (stage2_map_occupations_to_programs chunks programs
        occupation_infos occupation_embeddings occ_to_pathways hi cap) occ
      = some progs_hi) :
    ∃ progs_lo, pyGet (stage2_map_occupations_to_programs chunks programs
        occupation_infos occupation_embeddings occ_to_pathways lo cap) occ
        = some progs_lo
      ∧ ∀ ps ∈ progs_hi, ps ∈ progs_lo := by
  rw [stage2_map_eq_foldInsert] at hhi
  have horigin := @forall_mem_foldInsert String (List (String × ℝ))
    (OccupationInfo × List ℝ) _
    (fun oc => oc.1.occ_code)
    (stage2_entry chunks programs occ_to_pathways hi cap)
    (fun x : String × List (String × ℝ) =>
      ∃ it ∈ occupation_infos.zip occupation_embeddings,
        it.1.occ_code = x.1
        ∧ stage2_entry chunks programs occ_to_pathways hi cap it = some x.2)
    (occupation_infos.zip occupation_embeddings) []
    (by intro x hx; cases hx)
    (fun it hit v hv => ⟨it, hit, rfl, hv⟩)
  have hmemD := pyGet_mem hhi
  rcases horigin _ hmemD with ⟨it, hit, hkey, hmv⟩
  obtain ⟨oia, oemb⟩ := it
  have huniq := zip_unique_key (fun oi : OccupationInfo => oi.occ_code) hnd hit
  have hkey' : oia.occ_code = occ := hkey
  subst hkey'
  rw [stage2_entry] at hmv
  cases hpw : pyGet occ_to_pathways oia.occ_code with
  | none => rw [hpw] at hmv; cases hmv
  | some pws =>
    rw [hpw] at hmv
    simp only at hmv
    split at hmv
    · cases hmv
    · rename_i hcand
      split at hmv
      · cases hmv
      · rename_i hscore
        have hps : stage2_select oemb
            ((stage2_load_program_embeddings chunks).filter
              (fun pc : String × List ℝ =>
                match pyGet (pyDict programs) pc.1 with
                | some pw => decide (pw ∈ pws.map (fun x : String × ℝ => x.1))
                | none => false)) hi cap = progs_hi := Option.some_inj.mp hmv
        have hne_hi : stage2_select oemb
            ((stage2_load_program_embeddings chunks).filter
              (fun pc : String × List ℝ =>
                match pyGet (pyDict programs) pc.1 with
                | some pw => decide (pw ∈ pws.map (fun x : String × ℝ => x.1))
                | none => false)) hi cap ≠ [] := by
          intro h0
          rw [h0] at hscore
          exact hscore rfl
        obtain ⟨ps0, hps0⟩ := List.exists_mem_of_ne_nil _ hne_hi
        have hps0lo := mem_stage2_select_mono oemb _ hle cap hps0
        have hne_lo : (stage2_select oemb
            ((stage2_load_program_embeddings chunks).filter
              (fun pc : String × List ℝ =>
                match pyGet (pyDict programs) pc.1 with
                | some pw => decide (pw ∈ pws.map (fun x : String × ℝ => x.1))
                | none => false)) lo cap).isEmpty ≠ true := by
          intro h0
          rw [List.isEmpty_iff] at h0
          rw [h0] at hps0lo
          cases hps0lo
        have hlo_entry : stage2_entry chunks programs occ_to_pathways lo cap
            (oia, oemb)
            = some (stage2_select oemb
              ((stage2_load_program_embeddings chunks).filter
                (fun pc : String × List ℝ =>
                  match pyGet (pyDict programs) pc.1 with
                  | some pw => decide (pw ∈ pws.map (fun x : String × ℝ => x.1))
                  | none => false)) lo cap) := by
          rw [stage2_entry, hpw]
          simp only
          rw [if_neg hcand, if_neg hne_lo]
        have hlo := pyGet_foldInsert_of_unique
          (fun oc : OccupationInfo × List ℝ => oc.1.occ_code)
          (stage2_entry chunks programs occ_to_pathways lo cap) [] hit rfl
          (fun it' h' hk' => huniq it' h' hk')
        simp only [hlo_entry] at hlo
        refine ⟨stage2_select oemb
          ((stage2_load_program_embeddings chunks).filter
            (fun pc : String × List ℝ =>
              match pyGet (pyDict programs) pc.1 with
              | some pw => decide (pw ∈ pws.map (fun x : String × ℝ => x.1))
              | none => false)) lo cap, ?_, ?_⟩
        · rw [stage2_map_eq_foldInsert]
          exact hlo
        · intro ps hps'
          rw [← hps] at hps'
          exact mem_stage2_select_mono oemb _ hle cap hps'

lemma sumSq_34 : sumSq [(3 : ℝ), 4] = 25 := by
  norm_num [sumSq]

lemma npNorm_34 : npNorm [(3 : ℝ), 4] = 5 := by
  rw [npNorm, sumSq_34, show (25 : ℝ) = 5 ^ 2 by norm_num,
    Real.sqrt_sq (by norm_num : (0 : ℝ) ≤ 5)]

lemma stage2_score_34_34 :
    stage2_score [(3 : ℝ), 4] [(3 : ℝ), 4] = 25 / ((5 + eps) * (5 + eps)) := by
  rw [stage2_score, npNorm_34]
  norm_num [dot]

lemma c5_score_ge_hi : (0.3 : ℝ) ≤ stage2_score [(3 : ℝ), 4] [(3 : ℝ), 4] := by
  rw [stage2_score_34_34, eps]
  norm_num

/-- Evaluation of the C5 fixture's high-threshold run. -/
lemma c5w_hi_eval :
    pyGet (stage2_map_occupations_to_programs c5wChunks c5wProgs c5wOccs
        c5wOccEmbs c5wOTP 0.3 20) "X"
      = some [("p1", stage2_score [(3 : ℝ), 4] [(3 : ℝ), 4])] := by
  have h5 : stage2_select [(3 : ℝ), 4] [("p1", [(3 : ℝ), 4])] 0.3 20
      = [("p1", stage2_score [(3 : ℝ), 4] [(3 : ℝ), 4])] := by
    have e : stage2_select [(3 : ℝ), 4] [("p1", [(3 : ℝ), 4])] 0.3 20
        = (sortDesc (fun x : String × ℝ => x.2)
            ([(("p1" : String), [(3 : ℝ), 4])].filterMap
              (fun pc : String × List ℝ =>
                if (0.3 : ℝ) ≤ stage2_score [(3 : ℝ), 4] pc.2
                then some (pc.1, stage2_score [(3 : ℝ), 4] pc.2)
                else none))).take 20 := rfl
    rw [e]
    simp only [List.filterMap_cons, List.filterMap_nil]
    rw [if_pos c5_score_ge_hi]
    rfl
  have hentry : stage2_entry c5wChunks c5wProgs c5wOTP 0.3 20
      ((⟨"X", "", "", ""⟩ : OccupationInfo), [(3 : ℝ), 4])
      = some [("p1", stage2_score [(3 : ℝ), 4] [(3 : ℝ), 4])] := by
    rw [stage2_entry]
    have h1 : pyGet c5wOTP
        ((⟨"X", "", "", ""⟩ : OccupationInfo), [(3 : ℝ), 4]).1.occ_code
        = some [("pw1", (1 : ℝ))] := by
      show pyGet [("X", [("pw1", (1 : ℝ))])] "X" = some [("pw1", (1 : ℝ))]
      rw [pyGet_cons, if_pos rfl]
    rw [h1]
    have h2 : (stage2_load_program_embeddings c5wChunks).filter
        (fun pc : String × List ℝ =>
          match pyGet (pyDict c5wProgs) pc.1 with
          | some pw => decide (pw ∈ ([("pw1", (1 : ℝ))] :
              List (String × ℝ)).map (fun x : String × ℝ => x.1))
          | none => false)
        = [(("p1" : String), [(3 : ℝ), 4])] := by
      have hload : stage2_load_program_embeddings c5wChunks
          = [(("p1" : String), [(3 : ℝ), 4])] := by
        rw [stage2_load_program_embeddings]
        rfl
      rw [hload, List.filter_cons]
      have hget : pyGet (pyDict c5wProgs) ("p1" : String) = some "pw1" := by
        show pyGet [("p1", "pw1")] "p1" = some "pw1"
        rw [pyGet_cons, if_pos rfl]
      simp [hget]
    simp only
    rw [h2]
    simp only [List.isEmpty_cons, Bool.false_eq_true, if_false, h5]
  rw [stage2_map_eq_foldInsert,
    show c5wOccs.zip c5wOccEmbs
      = [((⟨"X", "", "", ""⟩ : OccupationInfo), [(3 : ℝ), 4])] from rfl,
    foldInsert_cons]
  simp only [hentry]
  exact pyGet_pyInsert_self [] _ _

/-- C5 witness: the fixture instantiates the monotonicity theorem at
thresholds 0.2 ≤ 0.3, its hypotheses discharged concretely. -/
theorem stage2_program_threshold_monotone_witness :
    ((0.2 : ℝ) ≤ 0.3)
    ∧ ((c5wOccs.map (fun oi => oi.occ_code)).Nodup)
    ∧ (pyGet (stage2_map_occupations_to_programs c5wChunks c5wProgs c5wOccs
          c5wOccEmbs c5wOTP 0.3 20) "X"
        = some [("p1", stage2_score [(3 : ℝ), 4] [(3 : ℝ), 4])])
    ∧ ∃ progs_lo, pyGet (stage2_map_occupations_to_programs c5wChunks c5wProgs
          c5wOccs c5wOccEmbs c5wOTP 0.2 20) "X" = some progs_lo
        ∧ ∀ ps ∈ [(("p1" : String), stage2_score [(3 : ℝ), 4] [(3 : ℝ), 4])],
            ps ∈ progs_lo := by
  have hle : (0.2 : ℝ) ≤ 0.3 := by norm_num
  have hnd : (c5wOccs.map (fun oi => oi.occ_code)).Nodup := by simp [c5wOccs]
  exact ⟨hle, hnd, c5w_hi_eval,
    stage2_program_threshold_monotone c5wChunks c5wProgs c5wOccs c5wOccEmbs
      c5wOTP 20 hle hnd "X" _ c5w_hi_eval⟩

/-- Evaluation of `search_programs` on the C8 fixture: the single
pathway-typed chunk is scored and returned. -/
lemma c8w_search_eval :
    search_programs [(3 : ℝ), 4] c8wChunks 10
      = [ScoredProgram.mk "pw1"
          (dot [(3 : ℝ), 4] (embed_query_local [(3 : ℝ), 4])
            / ((npNorm [(3 : ℝ), 4] + eps)
                * (npNorm (embed_query_local [(3 : ℝ), 4]) + eps)))
          (previewOf "t")] := by
  have hden : ¬ ((npNorm [(3 : ℝ), 4] + eps)
      * (npNorm (embed_query_local [(3 : ℝ), 4]) + eps) = 0) :=
    (mul_pos (npNorm_add_eps_pos _) (npNorm_add_eps_pos _)).ne'
  rw [search_programs]
  show (sortDesc (fun x : ScoredProgram => x.score)
      ((([(("pw1" : String), ("t" : String), [(3 : ℝ), 4])]).foldl (fun best row =>
        if (npNorm row.2.2 + eps) * (npNorm (embed_query_local [(3 : ℝ), 4]) + eps) = 0
        then best
        else
          match pyGet best row.1 with
          | none => pyInsert best row.1
              (dot row.2.2 (embed_query_local [(3 : ℝ), 4])
                / ((npNorm row.2.2 + eps)
                    * (npNorm (embed_query_local [(3 : ℝ), 4]) + eps)),
                previewOf row.2.1)
          | some sp =>
            if sp.1 < dot row.2.2 (embed_query_local [(3 : ℝ), 4])
                / ((npNorm row.2.2 + eps)
                    * (npNorm (embed_query_local [(3 : ℝ), 4]) + eps))
            then pyInsert best row.1
              (dot row.2.2 (embed_query_local [(3 : ℝ), 4])
                / ((npNorm row.2.2 + eps)
                    * (npNorm (embed_query_local [(3 : ℝ), 4]) + eps)),
                previewOf row.2.1)
            else best) []).map
        (fun b => ScoredProgram.mk b.1 b.2.1 b.2.2))).take 10 = _
  rw [List.foldl_cons, List.foldl_nil]
  rw [if_neg hden]
  simp only [pyGet_nil]
  rw [show pyInsert ([] : List (String × (ℝ × String))) "pw1"
      (dot [(3 : ℝ), 4] (embed_query_local [(3 : ℝ), 4])
        / ((npNorm [(3 : ℝ), 4] + eps)
            * (npNorm (embed_query_local [(3 : ℝ), 4]) + eps)),
        previewOf "t")
      = [("pw1", (dot [(3 : ℝ), 4] (embed_query_local [(3 : ℝ), 4])
          / ((npNorm [(3 : ℝ), 4] + eps)
              * (npNorm (embed_query_local [(3 : ℝ), 4]) + eps)),
          previewOf "t"))] from rfl]
  rw [List.map_cons, List.map_nil]
  rfl

/-- C8 counterexample: for a store whose only chunk has source type
`"pathway"` (so the set of program-typed chunks is empty), `search_programs`
still returns a result — the non-program chunk contributed, because the
fetch carries no `chunk_source_type` filter. -/
theorem search_includes_nonprogram_chunks_cex :
    (c8wChunks.filter (fun c => c.chunk_source_type == "program")) = []
    ∧ search_programs [(3 : ℝ), 4] c8wChunks 10 ≠ [] := by
  constructor
  · rfl
  · rw [c8w_search_eval]
    exact List.cons_ne_nil _ _

/-- C8 amended: `search_programs` compares the query against every stored
chunk regardless of `chunk_source_type` — rewriting every chunk's source
type arbitrarily leaves its results unchanged — whereas the Stage-2 batch
loader populates `program_id_to_embedding` only from chunks whose
`chunk_source_type` is `"program"`. -/
theorem search_source_type_amended :
    (∀ (query_raw : List ℝ) (chunks : List VectorChunkRow) (top_k : ℕ)
        (f : String → String),
      search_programs query_raw
          (chunks.map (fun c => VectorChunkRow.mk (f c.chunk_source_type)
            c.chunk_source_id c.chunk_text c.chunk_embedding)) top_k
        = search_programs query_raw chunks top_k)
    ∧ (∀ chunks : List VectorChunkRow,
        (stage2_load_program_embeddings chunks).Forall (fun pe =>
          ∃ c ∈ chunks, c.chunk_source_type = "program"
            ∧ c.chunk_source_id = pe.1 ∧ c.chunk_embedding = pe.2)) := by
  constructor
  · intro query_raw chunks top_k f
    simp only [search_programs]
    rw [List.map_map]
    rfl
  · intro chunks
    rw [List.forall_iff_forall_mem]
    intro pe hpe
    have h1 := mem_pyDict hpe
    rcases List.mem_map.mp h1 with ⟨c, hc, hceq⟩
    have hcf := List.mem_filter.mp hc
    refine ⟨c, hcf.1, ?_, ?_, ?_⟩
    · have := hcf.2
      simpa [beq_iff_eq] using this
    · rw [← hceq]
    · rw [← hceq]

lemma pyGet_eq_none_forall {κ β : Type} [DecidableEq κ]
    {d : List (κ × β)} {k : κ} (h : pyGet d k = none) :
    ∀ e ∈ d, e.1 ≠ k := by
  intro e he
  rw [pyGet, Option.map_eq_none'] at h
  have := List.find?_eq_none.mp h e he
  simpa using this

/-- Membership in `pyInsert` under distinct keys: an entry is the inserted
pair or an untouched old entry with a different key. -/
lemma mem_pyInsert_strong {κ β : Type} [DecidableEq κ]
    {d : List (κ × β)} {k : κ} {v : β} {x : κ × β}
    (hnd : (d.map Prod.fst).Nodup) (h : x ∈ pyInsert d k v) :
    x = (k, v) ∨ (x ∈ d ∧ x.1 ≠ k) := by
  induction d with
  | nil =>
    simp only [pyInsert] at h
    rcases List.mem_singleton.mp h with rfl
    exact Or.inl rfl
  | cons p rest ih =>
    obtain ⟨a, b⟩ := p
    simp only [List.map_cons, List.nodup_cons] at hnd
    simp only [pyInsert] at h
    split at h
    · rename_i hak
      subst hak
      rcases List.mem_cons.mp h with rfl | h'
      · exact Or.inl rfl
      · refine Or.inr ⟨List.mem_cons_of_mem _ h', ?_⟩
        intro hx
        exact hnd.1 (List.mem_map.mpr ⟨x, h', hx⟩)
    · rename_i hak
      rcases List.mem_cons.mp h with rfl | h'
      · exact Or.inr ⟨List.mem_cons_self _ _, hak⟩
      · rcases ih hnd.2 h' with h'' | ⟨h1, h2⟩
        · exact Or.inl h''
        · exact Or.inr ⟨List.mem_cons_of_mem _ h1, h2⟩

/-- Under distinct keys, the value held at a key is unique. -/
lemma nodup_key_unique {κ β : Type} [DecidableEq κ]
    {d : List (κ × β)} (hnd : (d.map Prod.fst).Nodup)
    {k : κ} {v1 v2 : β} (h1 : (k, v1) ∈ d) (h2 : (k, v2) ∈ d) : v1 = v2 := by
  induction d with
  | nil => cases h1
  | cons p rest ih =>
    simp only [List.map_cons, List.nodup_cons] at hnd
    rcases List.mem_cons.mp h1 with rfl | h1'
    · rcases List.mem_cons.mp h2 with h2h | h2'
      · exact (Prod.mk.injEq .. ▸ h2h.symm).2
      · exact absurd (List.mem_map.mpr ⟨(k, v2), h2', rfl⟩) hnd.1
    · rcases List.mem_cons.mp h2 with rfl | h2'
      · exact absurd (List.mem_map.mpr ⟨(k, v1), h1', rfl⟩) hnd.1
      · exact ih hnd.2 h1' h2'

/-- `search_programs`, written as sort-and-truncate over the best-per-program
fold (proof helper; definitional). -/
lemma search_programs_eq (query_raw : List ℝ) (chunks : List VectorChunkRow)
    (top_k : ℕ) :
    search_programs query_raw chunks top_k
      = (sortDesc (fun x : ScoredProgram => x.score)
          (((chunks.map (fun c =>
              (c.chunk_source_id, c.chunk_text, c.chunk_embedding))).foldl
            (fun best row =>
              if (npNorm row.2.2 + eps)
                  * (npNorm (embed_query_local query_raw) + eps) = 0
              then best
              else
                match pyGet best row.1 with
                | none => pyInsert best row.1
                    (row_score (embed_query_local query_raw) row,
                      previewOf row.2.1)
                | some sp =>
                  if sp.1 < row_score (embed_query_local query_raw) row
                  then pyInsert best row.1
                      (row_score (embed_query_local query_raw) row,
                        previewOf row.2.1)
                  else best) []).map
            (fun b => ScoredProgram.mk b.1 b.2.1 b.2.2))).take top_k := rfl

/-- One step of the best-per-program loop preserves the search invariant. -/
lemma search_inv_step (q : List ℝ) (row : String × String × List ℝ)
    (seen : List (String × String × List ℝ))
    (best : List (String × (ℝ × String))) (h : SearchInv q seen best) :
    SearchInv q (seen ++ [row])
      (if (npNorm row.2.2 + eps) * (npNorm q + eps) = 0 then best
       else
         match pyGet best row.1 with
         | none => pyInsert best row.1 (row_score q row, previewOf row.2.1)
         | some sp =>
           if sp.1 < row_score q row
           then pyInsert best row.1 (row_score q row, previewOf row.2.1)
           else best) := by
  obtain ⟨hK, hC, hW⟩ := h
  rw [if_neg (mul_pos (npNorm_add_eps_pos _) (npNorm_add_eps_pos _)).ne']
  cases hget : pyGet best row.1 with
  | none =>
    refine ⟨keys_nodup_pyInsert hK, ?_, ?_⟩
    · intro r hr
      rcases List.mem_append.mp hr with hr | hr
      · rcases hC r hr with ⟨e, he, hek⟩
        exact ⟨e, mem_pyInsert_of_mem_ne he (pyGet_eq_none_forall hget e he), hek⟩
      · rcases List.mem_singleton.mp hr with rfl
        exact ⟨(r.1, (row_score q r, previewOf r.2.1)),
          pyGet_mem (pyGet_pyInsert_self best r.1 _), rfl⟩
    · intro e he
      rcases mem_pyInsert_strong hK he with rfl | ⟨he', hne⟩
      · refine ⟨row, List.mem_append_right _ (List.mem_singleton.mpr rfl),
          rfl, rfl, rfl, ?_⟩
        intro r' hr' hk'
        rcases List.mem_append.mp hr' with hr' | hr'
        · rcases hC r' hr' with ⟨e0, he0, he0k⟩
          exact absurd (he0k.trans hk') (pyGet_eq_none_forall hget e0 he0)
        · rcases List.mem_singleton.mp hr' with rfl
          exact le_refl _
      · rcases hW e he' with ⟨r0, hr0, hr0k, hsc, hprev, hdom⟩
        refine ⟨r0, List.mem_append_left _ hr0, hr0k, hsc, hprev, ?_⟩
        intro r' hr' hk'
        rcases List.mem_append.mp hr' with hr' | hr'
        · exact hdom r' hr' hk'
        · rcases List.mem_singleton.mp hr' with rfl
          exact absurd hk'.symm hne
  | some sp =>
    have hspmem : (row.1, sp) ∈ best := pyGet_mem hget
    show SearchInv q (seen ++ [row])
      (if sp.1 < row_score q row
       then pyInsert best row.1 (row_score q row, previewOf row.2.1)
       else best)
    by_cases hlt : sp.1 < row_score q row
    · rw [if_pos hlt]
      refine ⟨keys_nodup_pyInsert hK, ?_, ?_⟩
      · intro r hr
        rcases List.mem_append.mp hr with hr | hr
        · rcases hC r hr with ⟨e, he, hek⟩
          by_cases hek2 : e.1 = row.1
          · refine ⟨(row.1, (row_score q row, previewOf row.2.1)),
              pyGet_mem (pyGet_pyInsert_self best row.1 _), ?_⟩
            exact hek2 ▸ hek
          · exact ⟨e, mem_pyInsert_of_mem_ne he hek2, hek⟩
        · rcases List.mem_singleton.mp hr with rfl
          exact ⟨(r.1, (row_score q r, previewOf r.2.1)),
            pyGet_mem (pyGet_pyInsert_self best r.1 _), rfl⟩
      · intro e he
        rcases mem_pyInsert_strong hK he with rfl | ⟨he', hne⟩
        · refine ⟨row, List.mem_append_right _ (List.mem_singleton.mpr rfl),
            rfl, rfl, rfl, ?_⟩
          intro r' hr' hk'
          rcases List.mem_append.mp hr' with hr' | hr'
          · rcases hW (row.1, sp) hspmem with ⟨r0, hr0, hr0k, hsc0, hprev0, hdom0⟩
            exact le_of_lt (lt_of_le_of_lt (hdom0 r' hr' hk') hlt)
          · rcases List.mem_singleton.mp hr' with rfl
            exact le_refl _
        · rcases hW e he' with ⟨r0, hr0, hr0k, hsc, hprev, hdom⟩
          refine ⟨r0, List.mem_append_left _ hr0, hr0k, hsc, hprev, ?_⟩
          intro r' hr' hk'
          rcases List.mem_append.mp hr' with hr' | hr'
          · exact hdom r' hr' hk'
          · rcases List.mem_singleton.mp hr' with rfl
            exact absurd hk'.symm hne
    · rw [if_neg hlt]
      refine ⟨hK, ?_, ?_⟩
      · intro r hr
        rcases List.mem_append.mp hr with hr | hr
        · exact hC r hr
        · rcases List.mem_singleton.mp hr with rfl
          exact ⟨(r.1, sp), hspmem, rfl⟩
      · intro e he
        rcases hW e he with ⟨r0, hr0, hr0k, hsc, hprev, hdom⟩
        refine ⟨r0, List.mem_append_left _ hr0, hr0k, hsc, hprev, ?_⟩
        intro r' hr' hk'
        rcases List.mem_append.mp hr' with hr' | hr'
        · exact hdom r' hr' hk'
        · rcases List.mem_singleton.mp hr' with rfl
          have he1 : e.1 = r'.1 := hk'.symm
          have hmem2 : (r'.1, e.2) ∈ best := by
            rw [← he1]
            exact he
          have he2 : e.2 = sp := nodup_key_unique hK hmem2 hspmem
          rw [he2]
          exact le_of_not_lt hlt

/-- The best-per-program fold establishes the search invariant over all
processed rows. -/
lemma search_fold_inv (q : List ℝ) :
    ∀ (rows seen : List (String × String × List ℝ))
      (best : List (String × (ℝ × String))),
      SearchInv q seen best →
      SearchInv q (seen ++ rows)
        (rows.foldl (fun best row =>
          if (npNorm row.2.2 + eps) * (npNorm q + eps) = 0 then best
          else
            match pyGet best row.1 with
            | none => pyInsert best row.1 (row_score q row, previewOf row.2.1)
            | some sp =>
              if sp.1 < row_score q row
              then pyInsert best row.1 (row_score q row, previewOf row.2.1)
              else best) best) := by
  intro rows
  induction rows with
  | nil =>
    intro seen best h
    simpa using h
  | cons row rest ih =>
    intro seen best h
    rw [List.foldl_cons]
    have h2 := ih (seen ++ [row]) _ (search_inv_step q row seen best h)
    rw [List.append_assoc] at h2
    simpa using h2

/-- C7: `search_programs` returns at most `top_k` results, in descending
score order, at most one per distinct program; each result's score is the
maximum chunk score over all stored chunks of that program (not an average,
not the first), and its preview is the first 160 characters of a chunk
achieving that maximum, newlines replaced by spaces
(`previewOf = text[:160].replace("\n", " ")`). -/
theorem search_programs_per_program_max
    (query_raw : List ℝ) (chunks : List VectorChunkRow) (top_k : ℕ) :
    (search_programs query_raw chunks top_k).length ≤ top_k
    ∧ (search_programs query_raw chunks top_k).Pairwise
        (fun a b => b.score ≤ a.score)
    ∧ ((search_programs query_raw chunks top_k).map
        (fun r => r.program_id)).Nodup
    ∧ (search_programs query_raw chunks top_k).Forall (fun r =>
        ∃ c ∈ chunks, c.chunk_source_id = r.program_id
          ∧ r.score = chunk_score query_raw c
          ∧ r.preview = previewOf c.chunk_text
          ∧ ∀ c' ∈ chunks, c'.chunk_source_id = r.program_id →
              chunk_score query_raw c' ≤ r.score) := by
  rw [search_programs_eq]
  have hinv := search_fold_inv (embed_query_local query_raw)
    (chunks.map (fun c => (c.chunk_source_id, c.chunk_text, c.chunk_embedding)))
    [] []
    ⟨List.nodup_nil,
      fun r hr => absurd hr (List.not_mem_nil r),
      fun e he => absurd he (List.not_mem_nil e)⟩
  rw [List.nil_append] at hinv
  obtain ⟨hK, hC, hW⟩ := hinv
  refine ⟨List.length_take_le _ _,
    (sortDesc_pairwise (fun x : ScoredProgram => x.score) _).take, ?_, ?_⟩
  · have hperm := sortDesc_perm (fun x : ScoredProgram => x.score)
      ((((chunks.map (fun c =>
          (c.chunk_source_id, c.chunk_text, c.chunk_embedding))).foldl
        (fun best row =>
          if (npNorm row.2.2 + eps)
              * (npNorm (embed_query_local query_raw) + eps) = 0
          then best
          else
            match pyGet best row.1 with
            | none => pyInsert best row.1
                (row_score (embed_query_local query_raw) row,
                  previewOf row.2.1)
            | some sp =>
              if sp.1 < row_score (embed_query_local query_raw) row
              then pyInsert best row.1
                  (row_score (embed_query_local query_raw) row,
                    previewOf row.2.1)
              else best) []).map
        (fun b => ScoredProgram.mk b.1 b.2.1 b.2.2)))
    have h1 := ((hperm.map (fun r : ScoredProgram => r.program_id)).nodup_iff).mpr
      (by rw [List.map_map]; exact hK)
    exact List.Nodup.sublist ((List.take_sublist _ _).map _) h1
  · rw [List.forall_iff_forall_mem]
    intro r hr
    have hr1 := List.mem_of_mem_take hr
    have hr2 := (mem_sortDesc (fun x : ScoredProgram => x.score)).mp hr1
    rcases List.mem_map.mp hr2 with ⟨e, he, rfl⟩
    rcases hW e he with ⟨row, hrow, hrowk, hsc, hprev, hdom⟩
    rcases List.mem_map.mp hrow with ⟨c, hc, rfl⟩
    refine ⟨c, hc, hrowk, hsc, hprev, ?_⟩
    intro c' hc' hk'
    exact hdom (c'.chunk_source_id, c'.chunk_text, c'.chunk_embedding)
      (List.mem_map.mpr ⟨c', hc', rfl⟩) hk'
